import Mathlib

/-!
# Flynn CLI, `cli/git.go`: resolving git remotes to applications

A shallow embedding of `cli/git.go` and theorems about it.

Modelling conventions.

* Go strings and byte slices are modelled as lists of Unicode code points
  (`Str`).  The program's texts are taken to be valid UTF-8, so byte-wise
  prefix and suffix tests and slicing at the end of a matched prefix agree
  with their code-point counterparts.  Where a byte count matters (the
  token limit of `bufio.Scanner`) it is computed with `utf8Len`.
* A run-time panic (slice or index out of range) is an `Except.error` of
  type `GoPanic`.
* A Go result pair `(value, error)` is a Lean pair whose second component
  is an `Option GoError` (`none` is the `nil` error).
* External commands are parameters: their outcome is an argument of the
  function that runs them.  A function that runs commands for their effect
  returns the argument vectors of the commands it ran, in order.
-/

namespace Flynn

/-- Text: a Go string or byte slice, as a list of code points. -/
abbrev Str := List Char

/-- The fields of `cfg.Cluster` that `cli/git.go` reads. -/
structure Cluster where
  Name : Str
  Key : Str
  Domain : Str
  GitHost : Str
deriving DecidableEq

/-- Run-time panics of the Go program. -/
inductive GoPanic where
  | sliceBounds
  | indexRange
deriving DecidableEq

deriving instance DecidableEq for Except

/-- Number of bytes of the UTF-8 encoding of a text (Go `len`). -/
def utf8Len (s : Str) : Nat := (s.map Char.utf8Size).sum

/-- Go `strings.HasPrefix`. -/
def HasPrefix (s pre : Str) : Bool := pre.isPrefixOf s

/-- Go `strings.HasSuffix`. -/
def HasSuffix (s suf : Str) : Bool := suf.isSuffixOf s

/-- Go slice expression `s[lo:hi]` with its bounds check; indices are Go `int`s. -/
def slice (s : Str) (lo hi : Int) : Except GoPanic Str :=
  if 0 ≤ lo ∧ lo ≤ hi ∧ hi ≤ (s.length : Int) then
    Except.ok ((s.drop lo.toNat).take (hi.toNat - lo.toNat))
  else
    Except.error GoPanic.sliceBounds

/-- Constant `gitURLSuffix`. -/
def gitURLSuffix : Str := ".git".toList

/-- Function `gitSSHURLPre`: `"ssh://git@" + gitHost + "/"`. -/
def gitSSHURLPre (gitHost : Str) : Str := "ssh://git@".toList ++ gitHost ++ "/".toList

/-- Function `gitHTTPURLPre`: `fmt.Sprintf("https://git.%s/", domain)`. -/
def gitHTTPURLPre (domain : Str) : Str := "https://git.".toList ++ domain ++ "/".toList

/-- Function `gitURL`. -/
def gitURL (conf : Cluster) (app : Str) : Str :=
  let pre : Str :=
    if conf.Domain ≠ [] then gitHTTPURLPre conf.Domain
    else if conf.GitHost ≠ [] then gitSSHURLPre conf.GitHost
    else []
  pre ++ app ++ gitURLSuffix

/-- Type `remoteApp`. -/
structure remoteApp where
  Cluster : Cluster
  Name : Str
deriving DecidableEq

/-- The prefix computed in the loop body of `appFromGitURL` (lines 102-109);
`none` is the `continue` of the final `else`. -/
def clusterPrefix (s : Cluster) : Option Str :=
  if s.Domain ≠ [] then some (gitHTTPURLPre s.Domain)
  else if s.GitHost ≠ [] then some (gitSSHURLPre s.GitHost)
  else none

/-- Function `appFromGitURL`; `clusters` is `config.Clusters` and `flagCluster`
the global scope filter. -/
def appFromGitURL (clusters : List Cluster) (flagCluster : Str) (remote : Str) :
    Except GoPanic (Option remoteApp) :=
  match clusters with
  | [] => Except.ok none
  | s :: rest =>
    if flagCluster ≠ [] ∧ s.Name ≠ flagCluster then
      appFromGitURL rest flagCluster remote
    else
      match clusterPrefix s with
      | none => appFromGitURL rest flagCluster remote
      | some pre =>
        if HasPrefix remote pre && HasSuffix remote gitURLSuffix then
          match slice remote pre.length ((remote.length : Int) - (gitURLSuffix.length : Int)) with
          | Except.ok name => Except.ok (some ⟨s, name⟩)
          | Except.error p => Except.error p
        else
          appFromGitURL rest flagCluster remote

/-- Go `unicode.IsSpace`: the white space of Latin-1 and the other code points with
the Unicode property White_Space. -/
def isSpace (c : Char) : Bool :=
  let n := c.toNat
  n = 0x09 || n = 0x0A || n = 0x0B || n = 0x0C || n = 0x0D || n = 0x20 || n = 0x85 || n = 0xA0
    || n = 0x1680 || (0x2000 ≤ n && n ≤ 0x200A) || n = 0x2028 || n = 0x2029 || n = 0x202F
    || n = 0x205F || n = 0x3000

/-- Loop of Go `bytes.Fields`: `cur` is the field being read, reversed (empty when no
field is open). -/
def fieldsAux : Str → Str → List Str
  | cur, [] => if cur = [] then [] else [cur.reverse]
  | cur, c :: cs =>
    if isSpace c then
      if cur = [] then fieldsAux [] cs else cur.reverse :: fieldsAux [] cs
    else fieldsAux (c :: cur) cs

/-- Go `bytes.Fields`: the maximal runs of non-space characters, in order. -/
def Fields (s : Str) : List Str := fieldsAux [] s

/-- Go `strings.TrimSpace`. -/
def TrimSpace (s : Str) : Str :=
  ((s.dropWhile isSpace).reverse.dropWhile isSpace).reverse

/-- Go `strings.TrimPrefix`. -/
def TrimPrefix (s pre : Str) : Str :=
  if HasPrefix s pre then s.drop pre.length else s

/-- Go `bytes.Split(s, sep)` for a separator of one character. -/
def Split (s : Str) (sep : Char) : List Str := s.splitOn sep

/-- Go `bytes.SplitN(s, sep, 2)` for a separator of one character: the text before
the first separator and the text after it, or the text alone when it has none. -/
def SplitN2 (s : Str) (sep : Char) : List Str :=
  if sep ∈ s then [s.takeWhile (fun c => c ≠ sep), (s.dropWhile (fun c => c ≠ sep)).drop 1]
  else [s]

/-- A Go `map[string]β`: an association list with distinct keys.  Go leaves the
iteration order open; here it is the order of first insertion. -/
abbrev GoMap (β : Type) := List (Str × β)

/-- Map assignment `m[k] = v`. -/
def mapSet {β : Type} : GoMap β → Str → β → GoMap β
  | [], k, v => [(k, v)]
  | (k0, v0) :: t, k, v => if k0 = k then (k, v) :: t else (k0, v0) :: mapSet t k v

/-- Map lookup `m[k]` with the presence flag. -/
def mapGet {β : Type} (m : GoMap β) (k : Str) : Option β := m.lookup k

/-- Map lookup `m[k]` on a `map[string]string`: the empty string for an absent key. -/
def mapGetD (m : GoMap Str) (k : Str) : Str := (m.lookup k).getD []

/-- Errors returned by running an external command (`os/exec`): the process ran and
ended with a wait status, or anything else. -/
inductive ExecError where
  | exitError (status : Int)
  | other (msg : Str)
deriving DecidableEq

/-- Go `error` values that occur in `cli/git.go`.  `errorf format args` is the value
of `fmt.Errorf(format, args...)`. -/
inductive GoError where
  | errorf (format : Str) (args : List Str)
  | exec (e : ExecError)
  | multipleRemotes (remotes : List Str)
  | ErrTooLong
deriving DecidableEq

/-- Go `fmt.Sprintf` for string operands, on the fragment of formats whose
directives are `%%`, `%s` and `%v` without flags; a `%s` or `%v` with no operand
left prints `%!s(MISSING)` resp. `%!v(MISSING)`.  The result is `none` outside this
fragment (other verbs, flags, a trailing `%`, operands left over). -/
def Sprintf : Str → List Str → Option Str
  | [], [] => some []
  | [], _ :: _ => none
  | c :: rest, args =>
    if c ≠ '%' then (Sprintf rest args).map (fun r => c :: r)
    else
      match rest, args with
      | [], _ => none
      | v :: rest1, args =>
        if v = '%' then (Sprintf rest1 args).map (fun r => '%' :: r)
        else if v = 's' ∨ v = 'v' then
          match args with
          | [] => (Sprintf rest1 []).map (fun r => "%!".toList ++ v :: "(MISSING)".toList ++ r)
          | a :: as => (Sprintf rest1 as).map (fun r => a ++ r)
        else none

/-- Go `strings.Join(a, "\n")`. -/
def joinLines : List Str → Str
  | [] => []
  | [a] => a
  | a :: b :: t => a ++ '\n' :: joinLines (b :: t)

/-- Method `Error()` of an error value: the message text, where it is modelled
(`none` for the errors of `os/exec` and for formats outside the `Sprintf` fragment). -/
def GoError.Error : GoError → Option Str
  | GoError.errorf format args => Sprintf format args
  | GoError.exec _ => none
  | GoError.multipleRemotes remotes =>
    some ("error: Multiple apps listed in git remotes, please specify one with the global -a option to disambiguate.\n\nAvailable Flynn remotes:\n".toList
      ++ joinLines remotes)
  | GoError.ErrTooLong => some "bufio.Scanner: token too long".toList

/-- Constant `bufio.MaxScanTokenSize`. -/
def MaxScanTokenSize : Nat := 64 * 1024

/-- Go `dropCR` of package `bufio`: drop one trailing carriage return. -/
def dropCR (data : Str) : Str :=
  if data.getLast? = some '\r' then data.dropLast else data

/-- Loop of a `bufio.Scanner` with split function `bufio.ScanLines`, on the pieces of
the input between newlines (the last piece is the text after the last newline): the
tokens delivered by the successive calls of `Scan` and the final value of `Err()`.
A line is delivered without its newline and without one trailing carriage return; the
text after the last newline is delivered when it is not empty; a line of
`MaxScanTokenSize` bytes or more (its newline not counted) does not fit the scanner's
buffer, and scanning stops there with `ErrTooLong`. -/
def scanTokens : List Str → List Str × Option GoError
  | [] => ([], none)
  | [last] =>
    if last = [] then ([], none)
    else if MaxScanTokenSize ≤ utf8Len last then ([], some GoError.ErrTooLong)
    else ([dropCR last], none)
  | line :: rest =>
    if MaxScanTokenSize ≤ utf8Len line then ([], some GoError.ErrTooLong)
    else (dropCR line :: (scanTokens rest).1, (scanTokens rest).2)

/-- Tokens and final error of `bufio.NewScanner(bytes.NewBuffer(b))` with `ScanLines`. -/
def scanLines (b : Str) : List Str × Option GoError := scanTokens (Split b '\n')

/-- Body of the scan loop of `parseGitRemoteOutput` (lines 125-134) for one line. -/
def parseGitRemoteLine (clusters : List Cluster) (flagCluster : Str)
    (results : GoMap remoteApp) (line : Str) : Except GoPanic (GoMap remoteApp) :=
  match Fields line with
  | [f0, f1, f2] =>
    if f2 ≠ "(push)".toList then Except.ok results
    else
      match appFromGitURL clusters flagCluster f1 with
      | Except.error p => Except.error p
      | Except.ok none => Except.ok results
      | Except.ok (some app) => Except.ok (mapSet results f0 app)
  | _ => Except.ok results

/-- The scan loop of `parseGitRemoteOutput` over the delivered lines. -/
def parseGitRemoteLines (clusters : List Cluster) (flagCluster : Str) :
    GoMap remoteApp → List Str → Except GoPanic (GoMap remoteApp)
  | results, [] => Except.ok results
  | results, line :: rest =>
    match parseGitRemoteLine clusters flagCluster results line with
    | Except.error p => Except.error p
    | Except.ok results1 => parseGitRemoteLines clusters flagCluster results1 rest

/-- Function `parseGitRemoteOutput`: the pair `(results, err)`; a `nil` map is `[]`. -/
def parseGitRemoteOutput (clusters : List Cluster) (flagCluster : Str) (b : Str) :
    Except GoPanic (GoMap remoteApp × Option GoError) :=
  match parseGitRemoteLines clusters flagCluster [] (scanLines b).1 with
  | Except.error p => Except.error p
  | Except.ok results =>
    match (scanLines b).2 with
    | some err => Except.ok ([], some err)
    | none => Except.ok (results, none)

/-- Function `gitRemotes`; `listing` is the outcome of `git remote -v`. -/
def gitRemotes (clusters : List Cluster) (flagCluster : Str) (listing : Except ExecError Str) :
    Except GoPanic (GoMap remoteApp × Option GoError) :=
  match listing with
  | Except.error err => Except.ok ([], some (GoError.exec err))
  | Except.ok b => parseGitRemoteOutput clusters flagCluster b

/-- Function `isNotFound`. -/
def isNotFound (err : GoError) : Bool :=
  match err with
  | GoError.exec (ExecError.exitError status) => status == 1
  | _ => false

/-- The outcomes of the external commands and system calls used by `appFromGitRemote`:
`gitConfigGet key` is the outcome of `git config <key>`, `gitRemoteV` the outcome of
`git remote -v`, `wdir` the result of `os.Getwd()`. -/
structure GitEnv where
  gitConfigGet : Str → Except ExecError Str
  gitRemoteV : Except ExecError Str
  wdir : Str

/-- Function `appFromGitRemote`: the pair `(app, err)`. -/
def appFromGitRemote (env : GitEnv) (clusters : List Cluster) (flagCluster : Str)
    (remote : Str) : Except GoPanic (Option remoteApp × Option GoError) :=
  if remote ≠ [] then
    match env.gitConfigGet ("remote.".toList ++ remote ++ ".url".toList) with
    | Except.error err =>
      if isNotFound (GoError.exec err) then
        Except.ok (none, some (GoError.errorf
          ("could not find git remote ".toList ++ remote ++ " in %s".toList) [env.wdir]))
      else Except.ok (none, some (GoError.exec err))
    | Except.ok b =>
      match appFromGitURL clusters flagCluster (TrimSpace b) with
      | Except.error p => Except.error p
      | Except.ok none =>
        Except.ok (none, some (GoError.errorf
          ("could not find app name in ".toList ++ remote ++ " git remote".toList) []))
      | Except.ok (some app) => Except.ok (some app, none)
  else
    match gitRemotes clusters flagCluster env.gitRemoteV with
    | Except.error p => Except.error p
    | Except.ok (_, some _) => Except.ok (none, none)
    | Except.ok (remotes, none) =>
      if remotes.length > 1 then
        Except.ok (none, some (GoError.multipleRemotes (remotes.map Prod.fst)))
      else
        match remotes with
        | (_, v) :: _ => Except.ok (some v, none)
        | [] => Except.ok (none, some (GoError.errorf "no apps in git remotes".toList []))

/-- The parsing loop of `runGitCredentials` (lines 250-256): the map `details`. -/
def parseDetails (detailBytes : Str) : GoMap Str :=
  (Split detailBytes '\n').foldl
    (fun details l =>
      match SplitN2 l '=' with
      | [k, v] => mapSet details k v
      | _ => details)
    []

/-- Function `runGitCredentials`: the text printed on standard output and the returned
error.  `operation` is `args.String["<operation>"]`, `stdin` the content of standard
input, `readConfig` the outcome of `readConfig()` with the clusters it loads. -/
def runGitCredentials (operation : Str) (stdin : Str)
    (readConfig : Except GoError (List Cluster)) : Str × Option GoError :=
  if operation ≠ "get".toList then ([], none)
  else
    let details := parseDetails stdin
    if mapGetD details "protocol".toList ≠ "https".toList then ([], none)
    else
      match readConfig with
      | Except.error _ => ([], none)
      | Except.ok clusters =>
        let domain := TrimPrefix (mapGetD details "host".toList) "git.".toList
        match clusters.find? (fun c => c.Domain = domain) with
        | none => ([], none)
        | some cluster =>
          ("protocol=https\nusername=user\nhost=".toList ++ mapGetD details "host".toList
            ++ "\npassword=".toList ++ cluster.Key ++ "\n".toList, none)


/-- The match of one cluster against a URL, as a value: what one iteration of the loop
of `appFromGitURL` returns, `none` when it continues.  Used to state what the loop
computes. -/
def matchCluster (flagCluster remote : Str) (s : Cluster) : Option remoteApp :=
  if flagCluster ≠ [] ∧ s.Name ≠ flagCluster then none
  else
    match clusterPrefix s with
    | none => none
    | some pre =>
      if pre <+: remote ∧ gitURLSuffix <:+ remote then
        some ⟨s, (remote.drop pre.length).take (remote.length - pre.length - gitURLSuffix.length)⟩
      else none

/-- The active prefix of a cluster in the words of the specification:
`https://git.<domain>/` if the domain is set, else `ssh://git@<gitHost>/` if the git
host is set, else none (the cluster is skipped). -/
def specActivePrefix (c : Cluster) : Option Str :=
  if c.Domain ≠ [] then some ("https://git.".toList ++ c.Domain ++ "/".toList)
  else if c.GitHost ≠ [] then some ("ssh://git@".toList ++ c.GitHost ++ "/".toList)
  else none

/-- A cluster matches a URL, in the words of the specification: the cluster has an
active prefix, the URL starts with it and the URL ends with `.git`. -/
def specMatches (u : Str) (c : Cluster) : Bool :=
  match specActivePrefix c with
  | none => false
  | some p => p.isPrefixOf u && ".git".toList.isSuffixOf u

/-- Example cluster with a domain. -/
def exampleCluster : Cluster :=
  ⟨"default".toList, "abc123".toList, "example.com".toList, []⟩

/-- Example cluster with a git host and no domain. -/
def sshCluster : Cluster :=
  ⟨"legacy".toList, "k0".toList, [], "example.com:2222".toList⟩

/-- Example cluster with both a domain and a git host. -/
def bothCluster : Cluster :=
  ⟨"both".toList, "k1".toList, "example.com".toList, "ssh.example.com".toList⟩

/-- The lines of a text, in the words of the specification: the pieces between
newlines; the empty piece after a final newline, or of the empty text, is not a line. -/
def textLines (b : Str) : List Str :=
  if (Split b '\n').getLast? = some [] then (Split b '\n').dropLast else Split b '\n'

/-- The record of one listing line that counts for resolution, in the words of the
specification: the line has exactly three whitespace-separated fields, the third is
`(push)`, and the URL (second field) is matched by `appFromGitURL`; the record is the
remote name (first field) with the matched identity. -/
def matchingRecord (clusters : List Cluster) (flagCluster : Str) (line : Str) :
    Option (Str × remoteApp) :=
  match Fields line with
  | [n, url, d] =>
    if d = "(push)".toList then
      match appFromGitURL clusters flagCluster url with
      | Except.ok (some app) => some (n, app)
      | _ => none
    else none
  | _ => none

/-- The matching push records of a list of lines, in order. -/
def matchingRecords (clusters : List Cluster) (flagCluster : Str) (lines : List Str) :
    List (Str × remoteApp) :=
  lines.filterMap (matchingRecord clusters flagCluster)

/-- Successive map assignments `m[k] = v` for a list of pairs. -/
def insertAll {β : Type} (m : GoMap β) (recs : List (Str × β)) : GoMap β :=
  recs.foldl (fun acc r => mapSet acc r.1 r.2) m

/-- The error value of line 191. -/
def noAppFound : GoError := GoError.errorf "no apps in git remotes".toList []

/-- Environment in which `git remote -v` prints the given text and every `git config`
lookup ends with exit status 1. -/
def listingEnv (b : Str) : GitEnv :=
  ⟨fun _ => Except.error (ExecError.exitError 1), Except.ok b, "/w".toList⟩

/-- Environment in which `git remote -v` fails with the given error and every
`git config` lookup ends with exit status 1. -/
def failingEnv (e : ExecError) : GitEnv :=
  ⟨fun _ => Except.error (ExecError.exitError 1), Except.error e, "/w".toList⟩

/-- A listing with two remotes of the example cluster. -/
def twoRemotesListing : Str :=
  ("flynn\thttps://git.example.com/app.git (fetch)\n" ++
   "flynn\thttps://git.example.com/app.git (push)\n" ++
   "staging\thttps://git.example.com/staging.git (fetch)\n" ++
   "staging\thttps://git.example.com/staging.git (push)\n").toList

/-- A listing in which one remote has two push URLs of the example cluster. -/
def twoPushURLsListing : Str :=
  ("flynn\thttps://git.example.com/a.git (push)\n" ++
   "flynn\thttps://git.example.com/b.git (push)\n").toList

/-- A listing with a line of two fields, a fetch line and a push line. -/
def lenientListing : Str :=
  ("broken line\n" ++
   "flynn\thttps://git.example.com/app.git (fetch)\n" ++
   "flynn\thttps://git.example.com/app.git (push)\n").toList

/-- A listing of one line of `MaxScanTokenSize` bytes. -/
def longLineListing : Str := List.replicate MaxScanTokenSize 'a'

/-- The credential request of the specification's scenario. -/
def exampleRequest : Str :=
  "operation=get\nprotocol=https\nhost=git.example.com\n\n".toList

/-! ## Remote names, global configuration and `mapOutput` -/

/-- Loop of a `bufio.Scanner` with split function `bufio.ScanWords` over an in-memory
buffer: the tokens delivered by the successive calls of `Scan` and the final value of
`Err()`.  `cur` is the word being read, reversed.  White space before a word is
consumed as it is read and takes no room in the scanner's buffer.  A word is
delivered when the white-space character that ends it has been read, or at the end of
the input; the word and the character that ends it must fit together in the buffer of
`MaxScanTokenSize` bytes, and a last word that nothing ends must leave the buffer
short of full: otherwise scanning stops with `ErrTooLong`. -/
def scanWordsAux : Str → Str → List Str × Option GoError
  | cur, [] =>
    if cur = [] then ([], none)
    else if MaxScanTokenSize ≤ utf8Len cur then ([], some GoError.ErrTooLong)
    else ([cur.reverse], none)
  | cur, c :: rest =>
    if isSpace c then
      if cur = [] then scanWordsAux [] rest
      else if utf8Len cur + c.utf8Size ≤ MaxScanTokenSize then
        (cur.reverse :: (scanWordsAux [] rest).1, (scanWordsAux [] rest).2)
      else ([], some GoError.ErrTooLong)
    else scanWordsAux (c :: cur) rest

/-- Tokens and final error of `bufio.NewScanner(bytes.NewBuffer(b))` with `ScanWords`. -/
def scanWords (b : Str) : List Str × Option GoError := scanWordsAux [] b

/-- The scan loop of `gitRemoteNames` (lines 74-79) over the delivered words; `f[0]`
on an empty list of fields is an index panic. -/
def gitRemoteNamesLoop : List Str → List Str → Except GoPanic (List Str)
  | results, [] => Except.ok results
  | results, word :: rest =>
    match Fields word with
    | [] => Except.error GoPanic.indexRange
    | f0 :: _ => gitRemoteNamesLoop (results ++ [f0]) rest

/-- Function `gitRemoteNames`: the pair `(results, err)`; `listing` is the outcome of
`git remote`, a `nil` slice is `[]`. -/
def gitRemoteNames (listing : Except ExecError Str) :
    Except GoPanic (List Str × Option GoError) :=
  match listing with
  | Except.error err => Except.ok ([], some (GoError.exec err))
  | Except.ok b =>
    match gitRemoteNamesLoop [] (scanWords b).1 with
    | Except.error p => Except.error p
    | Except.ok results =>
      match (scanWords b).2 with
      | some err => Except.ok ([], some err)
      | none => Except.ok (results, none)

/-- Outcome of `cmd.CombinedOutput()`: the combined output and the error. -/
structure CmdResult where
  out : Str
  err : Option ExecError

/-- The world in which commands run: the outcome of running an argument vector, given
the argument vectors of the commands run before it. -/
abbrev Runner := List (List Str) → List Str → CmdResult

/-- Error values of the global-configuration functions: `commandFailed err command out`
is the value of `fmt.Errorf("error %q running %q: %q", err, command, out)` in
`gitConfig`, `executable msg` the error returned by `osext.Executable()`. -/
inductive ConfigError where
  | commandFailed (err : ExecError) (command : Str) (out : Str)
  | executable (msg : Str)
deriving DecidableEq

/-- Go `strings.Join(a, " ")`. -/
def joinSpace : List Str → Str
  | [] => []
  | [a] => a
  | a :: b :: t => a ++ ' ' :: joinSpace (b :: t)

/-- Function `gitConfig`; `log` holds the argument vectors of the commands run so far.
Returns the extended log and the error. -/
def gitConfig (run : Runner) (log : List (List Str)) (args : List Str) :
    List (List Str) × Option ConfigError :=
  let argv : List Str := "git".toList :: ("config".toList :: "--global".toList :: args)
  match (run log argv).err with
  | some err => (log ++ [argv], some (ConfigError.commandFailed err (joinSpace argv) (run log argv).out))
  | none => (log ++ [argv], none)

/-- Function `writeGlobalGitConfig`: the argument vectors of the commands run, in
order, and the returned error.  `executable` is the outcome of `osext.Executable()`. -/
def writeGlobalGitConfig (run : Runner) (executable : Except Str Str) (domain caFile : Str) :
    List (List Str) × Option ConfigError :=
  match gitConfig run [] ["http.https://git.".toList ++ domain ++ ".sslCAInfo".toList, caFile] with
  | (log1, some err) => (log1, some err)
  | (log1, none) =>
    match executable with
    | Except.error msg => (log1, some (ConfigError.executable msg))
    | Except.ok self =>
      match gitConfig run log1 ["credential.https://git.".toList ++ domain ++ ".helper".toList,
          self ++ " git-credentials".toList] with
      | (log2, some err) => (log2, some err)
      | (log2, none) => (log2, none)

/-- Function `removeGlobalGitConfig`: the argument vectors of the commands run, in
order.  The Go function returns nothing. -/
def removeGlobalGitConfig (run : Runner) (domain : Str) : List (List Str) :=
  ["http.https://git.".toList ++ domain, "credential.https://git.".toList ++ domain].foldl
    (fun log k => (gitConfig run log ["--remove-section".toList, k]).1) []

/-- Loop of Go `strings.Split` for a non-empty separator: `skip` characters of a
separator just found are still to be passed over, `cur` is the current piece, reversed. -/
def splitAux (sep : Str) : Nat → Str → Str → List Str
  | _, cur, [] => [cur.reverse]
  | skip + 1, cur, _ :: rest => splitAux sep skip cur rest
  | 0, cur, c :: rest =>
    if sep.isPrefixOf (c :: rest) then cur.reverse :: splitAux sep (sep.length - 1) [] rest
    else splitAux sep 0 (c :: cur) rest

/-- Go `strings.Split(s, sep)`: the pieces between the occurrences of `sep`, found from
the left without overlap; with the empty separator, one piece for each character. -/
def SplitStr (s sep : Str) : List Str :=
  if sep = [] then s.map (fun c => [c]) else splitAux sep 0 [] s

/-- Search of the first occurrence of a non-empty separator: the text before it and
the text after it. -/
def splitFirstAux (sep : Str) : Str → Str → Option (Str × Str)
  | _, [] => none
  | cur, c :: rest =>
    if sep.isPrefixOf (c :: rest) then some (cur.reverse, (c :: rest).drop sep.length)
    else splitFirstAux sep (c :: cur) rest

/-- Go `strings.SplitN(s, sep, 2)`: the text alone when it has no separator, else the
text before the first separator and the text after it; with the empty separator, the
first character and the rest (no piece for the empty text, one for a single character). -/
def SplitN2Str (s sep : Str) : List Str :=
  if sep = [] then
    match s with
    | [] => []
    | [c] => [[c]]
    | c :: rest => [[c], rest]
  else
    match splitFirstAux sep [] s with
    | none => [s]
    | some (a, b) => [a, b]

/-- The loop of `mapOutput` (lines 53-56); `parts[1]` on fewer than two parts is an
index panic. -/
def mapOutputLoop (sep : Str) : GoMap Str → List Str → Except GoPanic (GoMap Str)
  | m, [] => Except.ok m
  | m, line :: rest =>
    match SplitN2Str line sep with
    | p0 :: p1 :: _ => mapOutputLoop sep (mapSet m p0 p1) rest
    | _ => Except.error GoPanic.indexRange

/-- Function `mapOutput`; the slice `lines[:len(lines)-1]` of an empty `lines` is a
slice panic. -/
def mapOutput (out sep term : Str) : Except GoPanic (GoMap Str) :=
  if (SplitStr out term).length = 0 then Except.error GoPanic.sliceBounds
  else mapOutputLoop sep [] (SplitStr out term).dropLast

/-- The maximal white-space-free tokens of a text, in the words of the specification:
the non-empty pieces between white-space characters, in order. -/
def specTokens (b : Str) : List Str :=
  (b.splitOnP isSpace).filter (fun t => !t.isEmpty)

/-- The key and value of a request line, in the words of the specification: for a line
that contains `=`, the text before its first `=` and the text after that `=`. -/
def requestPair (l : Str) : Option (Str × Str) :=
  if '=' ∈ l then
    some (l.takeWhile (fun c => c ≠ '='), (l.dropWhile (fun c => c ≠ '=')).drop 1)
  else none

/-- A world in which every command succeeds and prints nothing. -/
def okRunner : Runner := fun _ _ => ⟨[], none⟩

/-- A world in which every command fails with exit status 5. -/
def failingRunner : Runner := fun _ _ => ⟨"error".toList, some (ExecError.exitError 5)⟩

/-- A text of one word of `MaxScanTokenSize` bytes. -/
def longWord : Str := List.replicate MaxScanTokenSize 'a'

/-- The first command of the installation, in the words of the specification:
`git config --global http.https://git.<d>.sslCAInfo <p>`. -/
def installCommand1 (d p : Str) : List Str :=
  ["git".toList, "config".toList, "--global".toList,
    "http.https://git.".toList ++ d ++ ".sslCAInfo".toList, p]

/-- The second command of the installation, in the words of the specification:
`git config --global credential.https://git.<d>.helper "<self> git-credentials"`. -/
def installCommand2 (d self : Str) : List Str :=
  ["git".toList, "config".toList, "--global".toList,
    "credential.https://git.".toList ++ d ++ ".helper".toList,
    self ++ " git-credentials".toList]

/-- The commands of the removal, in the words of the specification:
`git config --global --remove-section <section>.https://git.<d>`. -/
def removeCommand (sect d : Str) : List Str :=
  ["git".toList, "config".toList, "--global".toList, "--remove-section".toList,
    sect ++ ".https://git.".toList ++ d]

/-! ## Lemmas on prefixes, suffixes and the slice -/

theorem gitURLSuffix_eq : gitURLSuffix = ['.', 'g', 'i', 't'] := rfl

theorem gitHTTPURLPre_eq (d : Str) :
    gitHTTPURLPre d = ("https://git.".toList ++ d) ++ ['/'] := rfl

theorem gitSSHURLPre_eq (h : Str) :
    gitSSHURLPre h = ("ssh://git@".toList ++ h) ++ ['/'] := rfl

/-- Every prefix computed by `appFromGitURL` ends in a slash. -/
theorem clusterPrefix_slash {s : Cluster} {pre : Str} (h : clusterPrefix s = some pre) :
    ∃ q, pre = q ++ ['/'] := by
  unfold clusterPrefix at h
  split_ifs at h with h1 h2
  · exact ⟨_, by rw [← Option.some.inj h, gitHTTPURLPre_eq]⟩
  · exact ⟨_, by rw [← Option.some.inj h, gitSSHURLPre_eq]⟩

/-- A text that starts with a prefix ending in a slash and ends with `.git` has the
suffix after the prefix. -/
theorem suffix_after_slash {q t : Str} (h : gitURLSuffix <:+ (q ++ ['/']) ++ t) :
    gitURLSuffix <:+ t := by
  have hlen : 4 ≤ t.length := by
    obtain ⟨s, hs⟩ := h
    have hr := congrArg List.reverse hs
    simp only [gitURLSuffix_eq, List.reverse_append, List.reverse_cons, List.reverse_nil,
      List.nil_append, List.cons_append, List.append_assoc] at hr
    have hl : t.reverse.length = t.length := List.length_reverse t
    rcases ht : t.reverse with _ | ⟨a, _ | ⟨b, _ | ⟨c, _ | ⟨d, r⟩⟩⟩⟩
    all_goals rw [ht] at hr hl
    all_goals simp at hr
    · simp at hl; omega
  exact List.suffix_of_suffix_length_le h (List.suffix_append _ _) (by simpa [gitURLSuffix_eq] using hlen)

/-- Decomposition of a URL that passes the test of line 111. -/
theorem url_decompose {s : Cluster} {pre remote : Str} (h : clusterPrefix s = some pre)
    (hp : pre <+: remote) (hs : gitURLSuffix <:+ remote) :
    ∃ name, remote = pre ++ name ++ gitURLSuffix := by
  obtain ⟨q, rfl⟩ := clusterPrefix_slash h
  obtain ⟨t, rfl⟩ := hp
  obtain ⟨name, rfl⟩ := suffix_after_slash hs
  exact ⟨name, by simp⟩

/-- The slice of line 112 on a URL of the form prefix, name, suffix. -/
theorem slice_decomposed (pre name : Str) :
    slice (pre ++ name ++ gitURLSuffix) pre.length
      (((pre ++ name ++ gitURLSuffix).length : Int) - (gitURLSuffix.length : Int))
      = Except.ok name := by
  unfold slice
  have h1 : ((pre ++ name ++ gitURLSuffix).length : Int) - (gitURLSuffix.length : Int)
      = ((pre.length + name.length : Nat) : Int) := by
    simp only [List.length_append]; push_cast; ring
  rw [h1]
  have h2 : (0 : Int) ≤ (pre.length : Int) ∧ (pre.length : Int) ≤ ((pre.length + name.length : Nat) : Int)
      ∧ ((pre.length + name.length : Nat) : Int) ≤ ((pre ++ name ++ gitURLSuffix).length : Int) := by
    simp only [List.length_append]; push_cast; omega
  rw [if_pos h2]
  have h3 : ((pre.length + name.length : Nat) : Int).toNat - (pre.length : Int).toNat
      = name.length := by
    simp only [Int.toNat_ofNat]; omega
  rw [h3]
  simp [List.append_assoc]

/-- The name computed by `matchCluster` on a URL of the form prefix, name, suffix. -/
theorem take_drop_decomposed (pre name : Str) :
    ((pre ++ name ++ gitURLSuffix).drop pre.length).take
      ((pre ++ name ++ gitURLSuffix).length - pre.length - gitURLSuffix.length) = name := by
  have : (pre ++ name ++ gitURLSuffix).length - pre.length - gitURLSuffix.length = name.length := by
    simp only [List.length_append]; omega
  rw [this]
  simp [List.append_assoc]

/-- The loop of `appFromGitURL` never panics and returns the first match in list order. -/
theorem appFromGitURL_eq (clusters : List Cluster) (flagCluster remote : Str) :
    appFromGitURL clusters flagCluster remote
      = Except.ok (clusters.findSome? (matchCluster flagCluster remote)) := by
  induction clusters with
  | nil => rfl
  | cons s rest ih =>
    rw [appFromGitURL, List.findSome?_cons]
    unfold matchCluster
    by_cases hf : flagCluster ≠ [] ∧ s.Name ≠ flagCluster
    · simp only [if_pos hf]; exact ih
    · simp only [if_neg hf]
      cases hpre : clusterPrefix s with
      | none => simpa using ih
      | some pre =>
        simp only [HasPrefix, HasSuffix, Bool.and_eq_true, List.isPrefixOf_iff_prefix,
          List.isSuffixOf_iff_suffix]
        by_cases hm : pre <+: remote ∧ gitURLSuffix <:+ remote
        · obtain ⟨name, rfl⟩ := url_decompose hpre hm.1 hm.2
          simp only [if_pos hm, slice_decomposed, take_drop_decomposed]
        · simp only [if_neg hm]; exact ih

theorem specActivePrefix_eq (c : Cluster) : specActivePrefix c = clusterPrefix c := rfl

theorem specMatches_iff (u : Str) (c : Cluster) :
    specMatches u c = true ↔
      ∃ p name, clusterPrefix c = some p ∧ u = p ++ name ++ gitURLSuffix := by
  unfold specMatches
  rw [specActivePrefix_eq]
  cases hpre : clusterPrefix c with
  | none => simp
  | some pre =>
    simp only [Bool.and_eq_true, List.isPrefixOf_iff_prefix, List.isSuffixOf_iff_suffix,
      Option.some.injEq, exists_and_left, exists_eq_left']
    constructor
    · rintro ⟨hp, hs⟩
      exact url_decompose hpre hp hs
    · rintro ⟨name, rfl⟩
      exact ⟨⟨name ++ gitURLSuffix, by simp⟩, ⟨pre ++ name, rfl⟩⟩

theorem matchCluster_eq_some (flagCluster u : Str) (c : Cluster) (r : remoteApp) :
    matchCluster flagCluster u c = some r ↔
      (flagCluster = [] ∨ c.Name = flagCluster) ∧
        ∃ p name, clusterPrefix c = some p ∧ u = p ++ name ++ gitURLSuffix ∧ r = ⟨c, name⟩ := by
  unfold matchCluster
  by_cases hf : flagCluster ≠ [] ∧ c.Name ≠ flagCluster
  · rw [if_pos hf]
    constructor
    · intro h; cases h
    · rintro ⟨h1, _⟩
      rcases h1 with h1 | h1
      · exact absurd h1 hf.1
      · exact absurd h1 hf.2
  · rw [if_neg hf]
    have hf2 : flagCluster = [] ∨ c.Name = flagCluster := by
      by_contra hc; push_neg at hc; exact hf hc
    cases hpre : clusterPrefix c with
    | none => simp
    | some pre =>
      simp only [Option.some.injEq, exists_and_left, exists_eq_left', hf2, true_and]
      by_cases hm : pre <+: u ∧ gitURLSuffix <:+ u
      · obtain ⟨name, rfl⟩ := url_decompose hpre hm.1 hm.2
        rw [if_pos hm, take_drop_decomposed]
        constructor
        · intro h; exact ⟨name, rfl, (Option.some.inj h).symm⟩
        · rintro ⟨name2, h2, rfl⟩
          have : name = name2 := by
            have h3 := List.append_cancel_left (by simpa [List.append_assoc] using h2 :
              pre ++ (name ++ gitURLSuffix) = pre ++ (name2 ++ gitURLSuffix))
            exact List.append_cancel_right h3
          rw [this]
      · rw [if_neg hm]
        constructor
        · intro h; cases h
        · rintro ⟨name, rfl, _⟩
          exact absurd ⟨⟨name ++ gitURLSuffix, by simp⟩, ⟨pre ++ name, rfl⟩⟩ hm

theorem matchCluster_eq_none (flagCluster u : Str) (c : Cluster) :
    matchCluster flagCluster u c = none ↔
      (flagCluster ≠ [] ∧ c.Name ≠ flagCluster) ∨ specMatches u c = false := by
  rw [← Option.not_isSome_iff_eq_none, Option.isSome_iff_exists]
  constructor
  · intro h
    by_contra hc
    push_neg at hc
    obtain ⟨hf, hs⟩ := hc
    rw [ne_eq, Bool.not_eq_false, specMatches_iff] at hs
    obtain ⟨p, name, hp, hu⟩ := hs
    apply h
    refine ⟨⟨c, name⟩, (matchCluster_eq_some _ _ _ _).2 ⟨?_, p, name, hp, hu, rfl⟩⟩
    by_cases h0 : flagCluster = []
    · exact Or.inl h0
    · exact Or.inr (hf h0)
  · rintro h ⟨r, hr⟩
    obtain ⟨hf, p, name, hp, hu, _⟩ := (matchCluster_eq_some _ _ _ _).1 hr
    rcases h with h | h
    · rcases hf with hf | hf
      · exact h.1 hf
      · exact h.2 hf
    · have : specMatches u c = true := (specMatches_iff u c).2 ⟨p, name, hp, hu⟩
      rw [h] at this; cases this

theorem gitURL_of_clusterPrefix {C : Cluster} {pre : Str} (h : clusterPrefix C = some pre)
    (a : Str) : gitURL C a = pre ++ a ++ gitURLSuffix := by
  unfold clusterPrefix at h
  unfold gitURL
  split_ifs at h ⊢ with h1 h2
  · rw [Option.some.inj h]
  · rw [Option.some.inj h]

theorem clusterPrefix_isSome {C : Cluster} (h : C.Domain ≠ [] ∨ C.GitHost ≠ []) :
    ∃ pre, clusterPrefix C = some pre := by
  unfold clusterPrefix
  by_cases h1 : C.Domain ≠ []
  · exact ⟨_, if_pos h1⟩
  · rcases h with h | h
    · exact absurd h h1
    · exact ⟨_, by rw [if_neg h1, if_pos h]⟩

/-! ## URL matching -/

/-- C1 (round trip): for a cluster with a non-empty domain or a non-empty git host and
an application name that is non-empty and has no slash, matching the URL built by
`gitURL` against the one-cluster list, with no scope filter or the filter equal to the
cluster's name, returns the cluster and the name. -/
theorem appFromGitURL_gitURL_roundtrip (C : Cluster) (a flagCluster : Str)
    (hC : C.Domain ≠ [] ∨ C.GitHost ≠ []) (_ha : a ≠ []) (_hslash : '/' ∉ a)
    (hf : flagCluster = [] ∨ flagCluster = C.Name) :
    appFromGitURL [C] flagCluster (gitURL C a) = Except.ok (some ⟨C, a⟩) := by
  obtain ⟨pre, hpre⟩ := clusterPrefix_isSome hC
  rw [appFromGitURL_eq, List.findSome?_cons, List.findSome?_nil]
  have h : matchCluster flagCluster (gitURL C a) C = some ⟨C, a⟩ :=
    (matchCluster_eq_some _ _ _ _).2
      ⟨hf.imp id Eq.symm, pre, a, hpre, gitURL_of_clusterPrefix hpre a, rfl⟩
  rw [h]

/-- Witness of C1 at the example cluster and the name `app`. -/
theorem appFromGitURL_gitURL_roundtrip_witness :
    appFromGitURL [exampleCluster] [] (gitURL exampleCluster "app".toList)
      = Except.ok (some ⟨exampleCluster, "app".toList⟩) :=
  appFromGitURL_gitURL_roundtrip exampleCluster "app".toList [] (by decide) (by decide)
    (by decide) (Or.inl rfl)

/-- C2 (first match wins): with no scope filter, `appFromGitURL` returns nil when no
cluster of the list matches the URL and only then; when some cluster matches, it
returns the first cluster of the list that matches, with the text between that
cluster's active prefix and `.git`; and when two clusters both match a URL, each of
the two orders of the pair yields the result of its first cluster. -/
theorem appFromGitURL_first_match (cs : List Cluster) (u : Str) :
    (appFromGitURL cs [] u = Except.ok none ↔ ∀ c ∈ cs, specMatches u c = false) ∧
    (∀ pre c post, cs = pre ++ c :: post → (∀ x ∈ pre, specMatches u x = false) →
      specMatches u c = true →
      ∃ p name, specActivePrefix c = some p ∧ u = p ++ name ++ ".git".toList ∧
        appFromGitURL cs [] u = Except.ok (some ⟨c, name⟩)) ∧
    (∀ c1 c2, specMatches u c1 = true → specMatches u c2 = true →
      (∃ n1, appFromGitURL [c1] [] u = Except.ok (some ⟨c1, n1⟩) ∧
        appFromGitURL [c1, c2] [] u = Except.ok (some ⟨c1, n1⟩)) ∧
      (∃ n2, appFromGitURL [c2] [] u = Except.ok (some ⟨c2, n2⟩) ∧
        appFromGitURL [c2, c1] [] u = Except.ok (some ⟨c2, n2⟩))) := by
  have key : ∀ (l : List Cluster) (pre : List Cluster) (c : Cluster) (post : List Cluster),
      l = pre ++ c :: post → (∀ x ∈ pre, specMatches u x = false) → specMatches u c = true →
      ∃ p name, specActivePrefix c = some p ∧ u = p ++ name ++ ".git".toList ∧
        appFromGitURL l [] u = Except.ok (some ⟨c, name⟩) := by
    intro l pre c post hl hpre hc
    obtain ⟨p, name, hp, hu⟩ := (specMatches_iff u c).1 hc
    refine ⟨p, name, hp, hu, ?_⟩
    rw [appFromGitURL_eq, hl, List.findSome?_append]
    have h1 : pre.findSome? (matchCluster [] u) = none :=
      List.findSome?_eq_none_iff.2 fun x hx =>
        (matchCluster_eq_none _ _ _).2 (Or.inr (hpre x hx))
    have h2 : matchCluster [] u c = some ⟨c, name⟩ :=
      (matchCluster_eq_some _ _ _ _).2 ⟨Or.inl rfl, p, name, hp, hu, rfl⟩
    rw [h1, List.findSome?_cons, h2]
    rfl
  refine ⟨?_, key cs, ?_⟩
  · rw [appFromGitURL_eq]
    simp only [Except.ok.injEq, List.findSome?_eq_none_iff]
    constructor
    · intro h c hc
      rcases (matchCluster_eq_none _ _ _).1 (h c hc) with h1 | h1
      · exact absurd rfl h1.1
      · exact h1
    · intro h c hc
      exact (matchCluster_eq_none _ _ _).2 (Or.inr (h c hc))
  · intro c1 c2 h1 h2
    constructor
    · obtain ⟨p, n1, _, _, h⟩ := key [c1, c2] [] c1 [c2] rfl (by simp) h1
      obtain ⟨p2, n2, _, hu2, h3⟩ := key [c1] [] c1 [] rfl (by simp) h1
      refine ⟨n1, ?_, h⟩
      rw [appFromGitURL_eq] at h h3 ⊢
      rw [List.findSome?_cons] at h h3
      cases hm : matchCluster [] u c1 with
      | none => rw [hm] at h3; simp at h3
      | some r => rw [hm] at h; simpa [hm] using h
    · obtain ⟨p, n1, _, _, h⟩ := key [c2, c1] [] c2 [c1] rfl (by simp) h2
      obtain ⟨p2, n2, _, hu2, h3⟩ := key [c2] [] c2 [] rfl (by simp) h2
      refine ⟨n1, ?_, h⟩
      rw [appFromGitURL_eq] at h h3 ⊢
      rw [List.findSome?_cons] at h h3
      cases hm : matchCluster [] u c2 with
      | none => rw [hm] at h3; simp at h3
      | some r => rw [hm] at h; simpa [hm] using h


/-! ## Maps -/

theorem lookup_cons_ite {β : Type} (n k : Str) (v : β) (t : List (Str × β)) :
    List.lookup n ((k, v) :: t) = if n = k then some v else List.lookup n t := by
  rw [List.lookup_cons]
  by_cases h : n = k
  · rw [if_pos h, beq_iff_eq.2 h]
  · rw [if_neg h, beq_eq_false_iff_ne.2 h]

theorem mapSet_keys {β : Type} (m : GoMap β) (k : Str) (v : β) :
    (mapSet m k v).map Prod.fst
      = if k ∈ m.map Prod.fst then m.map Prod.fst else m.map Prod.fst ++ [k] := by
  induction m with
  | nil => rfl
  | cons e t ih =>
    obtain ⟨k0, v0⟩ := e
    by_cases h : k0 = k
    · subst h
      simp only [mapSet, if_true, List.map_cons, List.mem_cons, true_or]
    · have h2 : ¬ k = k0 := fun hc => h hc.symm
      simp only [mapSet, if_neg h, List.map_cons, ih, List.mem_cons, h2, false_or]
      split_ifs
      · rfl
      · rfl

theorem mapSet_mem_keys {β : Type} (m : GoMap β) (k : Str) (v : β) (n : Str) :
    n ∈ (mapSet m k v).map Prod.fst ↔ n = k ∨ n ∈ m.map Prod.fst := by
  rw [mapSet_keys]
  split_ifs with h
  · constructor
    · exact Or.inr
    · rintro (rfl | h2)
      · exact h
      · exact h2
  · rw [List.mem_append, List.mem_singleton, or_comm]

theorem mapSet_nodup {β : Type} (m : GoMap β) (k : Str) (v : β)
    (h : (m.map Prod.fst).Nodup) : ((mapSet m k v).map Prod.fst).Nodup := by
  rw [mapSet_keys]
  split_ifs with hk
  · exact h
  · refine List.Nodup.append h (List.nodup_singleton k) ?_
    intro a ha hs
    rw [List.mem_singleton] at hs
    exact hk (hs ▸ ha)

theorem mapSet_lookup {β : Type} (m : GoMap β) (k : Str) (v : β) (n : Str) :
    (mapSet m k v).lookup n = if n = k then some v else m.lookup n := by
  induction m with
  | nil => rw [mapSet, lookup_cons_ite]
  | cons e t ih =>
    obtain ⟨k0, v0⟩ := e
    by_cases h : k0 = k
    · subst h
      rw [mapSet, if_pos rfl, lookup_cons_ite, lookup_cons_ite]
      by_cases hn : n = k0
      · rw [if_pos hn, if_pos hn]
      · rw [if_neg hn, if_neg hn, if_neg hn]
    · rw [mapSet, if_neg h, lookup_cons_ite, lookup_cons_ite, ih]
      by_cases hn : n = k0
      · have hk : ¬ n = k := fun hc => h (hn ▸ hc)
        rw [if_pos hn, if_neg hk, if_pos hn]
      · rw [if_neg hn, if_neg hn]

theorem insertAll_cons {β : Type} (m : GoMap β) (r : Str × β) (recs : List (Str × β)) :
    insertAll m (r :: recs) = insertAll (mapSet m r.1 r.2) recs := rfl

theorem insertAll_mem_keys {β : Type} (recs : List (Str × β)) (m : GoMap β) (n : Str) :
    n ∈ (insertAll m recs).map Prod.fst ↔ n ∈ m.map Prod.fst ∨ n ∈ recs.map Prod.fst := by
  induction recs generalizing m with
  | nil =>
    simp only [insertAll, List.foldl_nil, List.map_nil, List.not_mem_nil, or_false]
  | cons r t ih =>
    rw [insertAll_cons, ih, mapSet_mem_keys]
    simp only [List.map_cons, List.mem_cons]
    tauto

theorem insertAll_nodup {β : Type} (recs : List (Str × β)) (m : GoMap β)
    (h : (m.map Prod.fst).Nodup) : ((insertAll m recs).map Prod.fst).Nodup := by
  induction recs generalizing m with
  | nil => exact h
  | cons r t ih => rw [insertAll_cons]; exact ih _ (mapSet_nodup m r.1 r.2 h)

/-- After the assignments, the entry of a key is the value of the last pair with that
key, or the earlier entry when no pair has the key. -/
theorem insertAll_lookup {β : Type} (recs : List (Str × β)) (m : GoMap β) (n : Str) :
    (insertAll m recs).lookup n = (recs.reverse.lookup n).or (m.lookup n) := by
  induction recs generalizing m with
  | nil => cases h : List.lookup n m <;> simp only [insertAll, List.foldl_nil, h,
      List.reverse_nil, List.lookup_nil, Option.or]
  | cons r t ih =>
    obtain ⟨k, v⟩ := r
    rw [insertAll_cons, ih, mapSet_lookup, List.reverse_cons, List.lookup_append]
    cases h1 : List.lookup n t.reverse with
    | some x => rfl
    | none =>
      rw [lookup_cons_ite]
      by_cases hn : n = k
      · simp only [hn, if_true, Option.or]
      · simp only [hn, if_false, List.lookup_nil, Option.or]

/-- The number of entries after the assignments into the empty map is the number of
distinct keys. -/
theorem insertAll_length {β : Type} (recs : List (Str × β)) :
    (insertAll ([] : GoMap β) recs).length = (recs.map Prod.fst).dedup.length := by
  have h1 : ((insertAll ([] : GoMap β) recs).map Prod.fst).Nodup :=
    insertAll_nodup recs [] List.nodup_nil
  have h2 : (recs.map Prod.fst).dedup.Nodup := List.nodup_dedup _
  have hp : ((insertAll ([] : GoMap β) recs).map Prod.fst).Perm (recs.map Prod.fst).dedup := by
    rw [List.perm_ext_iff_of_nodup h1 h2]
    intro a
    rw [insertAll_mem_keys, List.mem_dedup]
    simp only [List.map_nil, List.not_mem_nil, false_or]
  have hl := hp.length_eq
  rw [List.length_map] at hl
  exact hl

/-! ## The line scanner -/

theorem MaxScanTokenSize_pos : 0 < MaxScanTokenSize := by decide

theorem utf8Len_nil : utf8Len [] = 0 := rfl

theorem scanTokens_cons_cons (a b : Str) (t : List Str) :
    scanTokens (a :: b :: t)
      = if MaxScanTokenSize ≤ utf8Len a then ([], some GoError.ErrTooLong)
        else (dropCR a :: (scanTokens (b :: t)).1, (scanTokens (b :: t)).2) := by
  rw [scanTokens]
  intro h; cases h

/-- The scanner ends without error exactly when every piece is shorter than the limit. -/
theorem scanTokens_err (segs : List Str) :
    (scanTokens segs).2 = none ↔ ∀ seg ∈ segs, utf8Len seg < MaxScanTokenSize := by
  induction segs with
  | nil => simp [scanTokens]
  | cons a t ih =>
    cases t with
    | nil =>
      simp only [scanTokens, List.mem_singleton, forall_eq]
      by_cases h0 : a = []
      · subst h0
        simp only [if_true, utf8Len_nil, MaxScanTokenSize_pos]
      · rw [if_neg h0]
        by_cases h1 : MaxScanTokenSize ≤ utf8Len a
        · rw [if_pos h1]
          constructor
          · intro h; cases h
          · intro h; omega
        · rw [if_neg h1]
          constructor
          · intro _; omega
          · intro _; rfl
    | cons b t2 =>
      rw [scanTokens_cons_cons]
      by_cases h1 : MaxScanTokenSize ≤ utf8Len a
      · rw [if_pos h1]
        constructor
        · intro h; cases h
        · intro h
          have := h a (List.mem_cons_self _ _)
          omega
      · rw [if_neg h1]
        simp only [ih, List.forall_mem_cons (p := fun seg => utf8Len seg < MaxScanTokenSize)
          (a := a)]
        constructor
        · intro h; exact ⟨by omega, h⟩
        · intro h; exact h.2

/-- With no error, the delivered tokens are the pieces, the empty last piece left out,
each without one trailing carriage return. -/
theorem scanTokens_tokens (segs : List Str) (h : (scanTokens segs).2 = none) :
    (scanTokens segs).1
      = (if segs.getLast? = some [] then segs.dropLast else segs).map dropCR := by
  induction segs with
  | nil => rfl
  | cons a t ih =>
    cases t with
    | nil =>
      simp only [scanTokens] at h ⊢
      by_cases h0 : a = []
      · subst h0; rfl
      · rw [if_neg h0] at h ⊢
        by_cases h1 : MaxScanTokenSize ≤ utf8Len a
        · rw [if_pos h1] at h; cases h
        · rw [if_neg h1]
          have : ¬ ([a].getLast? = some []) := by
            simpa using h0
          rw [if_neg this]
          rfl
    | cons b t2 =>
      rw [scanTokens_cons_cons] at h ⊢
      by_cases h1 : MaxScanTokenSize ≤ utf8Len a
      · rw [if_pos h1] at h; cases h
      · rw [if_neg h1] at h ⊢
        have ih2 := ih h
        simp only [ih2, List.getLast?_cons_cons]
        by_cases h3 : (b :: t2).getLast? = some []
        · rw [if_pos h3, if_pos h3]; rfl
        · rw [if_neg h3, if_neg h3]; rfl

/-- The scan of a listing ends without error exactly when no line has
`MaxScanTokenSize` bytes or more. -/
theorem scanLines_err (b : Str) :
    (scanLines b).2 = none ↔ ∀ l ∈ textLines b, utf8Len l < MaxScanTokenSize := by
  unfold scanLines textLines
  rw [scanTokens_err]
  by_cases h : (Split b '\n').getLast? = some []
  · rw [if_pos h]
    constructor
    · intro h2 l hl
      exact h2 l (List.mem_of_mem_dropLast hl)
    · intro h2 l hl
      have hne : Split b '\n' ≠ [] := by
        intro hc; rw [hc] at h; cases h
      rw [← List.dropLast_append_getLast? [] h] at hl
      rcases List.mem_append.1 hl with hl | hl
      · exact h2 l hl
      · rw [List.mem_singleton] at hl
        subst hl
        exact MaxScanTokenSize_pos
  · rw [if_neg h]

/-- With no error, the scanned lines are the lines of the text, each without one
trailing carriage return. -/
theorem scanLines_tokens (b : Str) (h : (scanLines b).2 = none) :
    (scanLines b).1 = (textLines b).map dropCR := by
  unfold scanLines at h ⊢
  rw [scanTokens_tokens _ h]
  rfl

/-- A final white-space character does not change the fields. -/
theorem fieldsAux_append_space (c : Char) (hc : isSpace c = true) (s cur : Str) :
    fieldsAux cur (s ++ [c]) = fieldsAux cur s := by
  induction s generalizing cur with
  | nil =>
    simp only [List.nil_append, fieldsAux, hc, if_true]
  | cons x t ih =>
    simp only [List.cons_append, fieldsAux, List.append_eq, ih]

theorem Fields_dropCR (l : Str) : Fields (dropCR l) = Fields l := by
  unfold dropCR
  split_ifs with h
  · conv_rhs => rw [← List.dropLast_append_getLast? '\r' h]
    unfold Fields
    rw [fieldsAux_append_space '\r' (by decide)]
  · rfl

/-! ## Listing -/

theorem parseGitRemoteLine_eq (clusters : List Cluster) (flagCluster : Str)
    (m : GoMap remoteApp) (line : Str) :
    parseGitRemoteLine clusters flagCluster m line
      = Except.ok (match matchingRecord clusters flagCluster line with
          | none => m
          | some r => mapSet m r.1 r.2) := by
  unfold parseGitRemoteLine matchingRecord
  split
  · rename_i f0 f1 f2 _
    by_cases h : f2 = "(push)".toList
    · simp only [h, ne_eq, not_true_eq_false, if_false, if_true, appFromGitURL_eq]
      cases List.findSome? (matchCluster flagCluster f1) clusters <;> rfl
    · simp only [ne_eq, h, not_false_eq_true, if_true, if_false]
  · rfl

theorem parseGitRemoteLines_eq (clusters : List Cluster) (flagCluster : Str)
    (lines : List Str) (m : GoMap remoteApp) :
    parseGitRemoteLines clusters flagCluster m lines
      = Except.ok (insertAll m (matchingRecords clusters flagCluster lines)) := by
  induction lines generalizing m with
  | nil => rfl
  | cons line rest ih =>
    rw [parseGitRemoteLines, parseGitRemoteLine_eq]
    simp only [ih, matchingRecords, List.filterMap_cons]
    cases matchingRecord clusters flagCluster line <;> rfl

theorem parseGitRemoteOutput_eq (clusters : List Cluster) (flagCluster : Str) (b : Str) :
    parseGitRemoteOutput clusters flagCluster b
      = Except.ok (match (scanLines b).2 with
          | some err => ([], some err)
          | none => (insertAll [] (matchingRecords clusters flagCluster (scanLines b).1), none)) := by
  unfold parseGitRemoteOutput
  rw [parseGitRemoteLines_eq]
  cases (scanLines b).2 <;> rfl

theorem matchingRecord_iff (clusters : List Cluster) (flagCluster : Str) (l n : Str)
    (app : remoteApp) :
    matchingRecord clusters flagCluster l = some (n, app) ↔
      ∃ url, Fields l = [n, url, "(push)".toList] ∧
        appFromGitURL clusters flagCluster url = Except.ok (some app) := by
  unfold matchingRecord
  split
  · rename_i f0 f1 f2 hF
    rw [hF]
    by_cases h : f2 = "(push)".toList
    · rw [if_pos h, appFromGitURL_eq]
      subst h
      cases hm : List.findSome? (matchCluster flagCluster f1) clusters with
      | none =>
        constructor
        · intro hc; cases hc
        · rintro ⟨url, hu, ha⟩
          simp only [List.cons.injEq, and_true] at hu
          rw [appFromGitURL_eq, ← hu.2, hm] at ha
          cases ha
      | some r =>
        constructor
        · intro hc
          simp only [Option.some.injEq, Prod.mk.injEq] at hc
          refine ⟨f1, by rw [hc.1], ?_⟩
          rw [appFromGitURL_eq, hm, hc.2]
        · rintro ⟨url, hu, ha⟩
          simp only [List.cons.injEq, and_true] at hu
          rw [appFromGitURL_eq, ← hu.2, hm] at ha
          simp only [Except.ok.injEq, Option.some.injEq] at ha
          rw [hu.1, ha]
    · rw [if_neg h]
      constructor
      · intro hc; cases hc
      · rintro ⟨url, hu, _⟩
        simp only [List.cons.injEq, and_true] at hu
        exact absurd hu.2.2 h
  · rename_i hF
    constructor
    · intro hc; cases hc
    · rintro ⟨url, hu, _⟩
      exact absurd hu (hF n url "(push)".toList)

theorem matchingRecord_dropCR (clusters : List Cluster) (flagCluster : Str) (l : Str) :
    matchingRecord clusters flagCluster (dropCR l) = matchingRecord clusters flagCluster l := by
  unfold matchingRecord
  rw [Fields_dropCR]

theorem matchingRecords_dropCR (clusters : List Cluster) (flagCluster : Str)
    (lines : List Str) :
    matchingRecords clusters flagCluster (lines.map dropCR)
      = matchingRecords clusters flagCluster lines := by
  unfold matchingRecords
  rw [List.filterMap_map]
  congr 1
  funext l
  exact matchingRecord_dropCR clusters flagCluster l

/-- The last pair with a given key among the pairs selected from a list. -/
theorem lookup_reverse_filterMap {β : Type} (f : Str → Option (Str × β)) (lines : List Str)
    (n : Str) (v : β) :
    (lines.filterMap f).reverse.lookup n = some v ↔
      ∃ pre line post, lines = pre ++ line :: post ∧ f line = some (n, v) ∧
        ∀ l ∈ post, ∀ w, f l ≠ some (n, w) := by
  induction lines using List.reverseRecOn with
  | nil =>
    constructor
    · intro h; cases h
    · rintro ⟨pre, line, post, h, _⟩
      exact absurd h (by intro hc; have := congrArg List.length hc; simp at this; omega)
  | append_singleton t a ih =>
    have skip : (∀ w, f a ≠ some (n, w)) →
        ((∃ pre line post, t ++ [a] = pre ++ line :: post ∧ f line = some (n, v) ∧
          ∀ l ∈ post, ∀ w, f l ≠ some (n, w)) ↔
         (∃ pre line post, t = pre ++ line :: post ∧ f line = some (n, v) ∧
          ∀ l ∈ post, ∀ w, f l ≠ some (n, w))) := by
      intro ha
      constructor
      · rintro ⟨pre, line, post, h1, h2, h3⟩
        rcases List.eq_nil_or_concat post with hp | ⟨post1, z, hp⟩
        · subst hp
          have h4 : t ++ [a] = pre ++ [line] := h1
          obtain ⟨_, h5⟩ := List.append_inj' h4 rfl
          simp only [List.cons.injEq, and_true] at h5
          rw [← h5] at h2
          exact absurd h2 (ha v)
        · rw [List.concat_eq_append] at hp
          subst hp
          have h4 : t ++ [a] = (pre ++ line :: post1) ++ [z] := by
            rw [h1]; simp
          obtain ⟨h5, _⟩ := List.append_inj' h4 rfl
          exact ⟨pre, line, post1, h5, h2, fun l hl => h3 l (List.mem_append_left _ hl)⟩
      · rintro ⟨pre, line, post, h1, h2, h3⟩
        refine ⟨pre, line, post ++ [a], by rw [h1]; simp, h2, ?_⟩
        intro l hl
        rcases List.mem_append.1 hl with hl | hl
        · exact h3 l hl
        · rw [List.mem_singleton] at hl; subst hl; exact ha
    rw [List.filterMap_append, List.reverse_append, List.lookup_append]
    cases hfa : f a with
    | none =>
      rw [skip (by intro w; rw [hfa]; exact fun hc => by cases hc), ← ih]
      simp only [List.filterMap_cons, hfa, List.filterMap_nil, List.reverse_nil,
        List.lookup_nil, Option.or]
    | some r =>
      obtain ⟨k, w⟩ := r
      simp only [List.filterMap_cons, hfa, List.filterMap_nil, List.reverse_cons,
        List.reverse_nil, List.nil_append, lookup_cons_ite, List.lookup_nil]
      by_cases hk : n = k
      · subst hk
        simp only [if_true, Option.or, Option.some.injEq]
        constructor
        · intro hw
          subst hw
          exact ⟨t, a, [], rfl, hfa, by simp⟩
        · rintro ⟨pre, line, post, h1, h2, h3⟩
          rcases List.eq_nil_or_concat post with hp | ⟨post1, z, hp⟩
          · subst hp
            have h4 : t ++ [a] = pre ++ [line] := h1
            obtain ⟨_, h5⟩ := List.append_inj' h4 rfl
            simp only [List.cons.injEq, and_true] at h5
            rw [← h5, hfa] at h2
            simp only [Option.some.injEq, Prod.mk.injEq, true_and] at h2
            exact h2
          · rw [List.concat_eq_append] at hp
            subst hp
            have h4 : t ++ [a] = (pre ++ line :: post1) ++ [z] := by
              rw [h1]; simp
            obtain ⟨_, h5⟩ := List.append_inj' h4 rfl
            simp only [List.cons.injEq, and_true] at h5
            exact absurd (h5 ▸ hfa) (h3 z (by simp) w)
      · rw [if_neg hk]
        rw [skip (by
          intro w2; rw [hfa]; intro hc
          simp only [Option.some.injEq, Prod.mk.injEq] at hc
          exact hk hc.1.symm), ← ih]
        simp only [Option.or]

theorem parseGitRemoteOutput_short (clusters : List Cluster) (flagCluster b : Str)
    (hshort : ∀ l ∈ textLines b, utf8Len l < MaxScanTokenSize) :
    parseGitRemoteOutput clusters flagCluster b
      = Except.ok (insertAll [] (matchingRecords clusters flagCluster (textLines b)), none) := by
  have herr := (scanLines_err b).2 hshort
  rw [parseGitRemoteOutput_eq, herr, scanLines_tokens b herr, matchingRecords_dropCR]

theorem appFromGitRemote_implicit (env : GitEnv) (clusters : List Cluster)
    (flagCluster b : Str) (hl : env.gitRemoteV = Except.ok b)
    (hshort : ∀ l ∈ textLines b, utf8Len l < MaxScanTokenSize) :
    appFromGitRemote env clusters flagCluster []
      = if (insertAll [] (matchingRecords clusters flagCluster (textLines b))).length > 1 then
          Except.ok (none, some (GoError.multipleRemotes
            ((insertAll [] (matchingRecords clusters flagCluster (textLines b))).map Prod.fst)))
        else
          match insertAll [] (matchingRecords clusters flagCluster (textLines b)) with
          | (_, v) :: _ => Except.ok (some v, none)
          | [] => Except.ok (none, some noAppFound) := by
  unfold appFromGitRemote gitRemotes
  rw [hl]
  simp only [ne_eq, not_true_eq_false, if_false,
    parseGitRemoteOutput_short clusters flagCluster b hshort]
  rfl

/-! ## Resolution -/

/-- C3 as amended (disambiguation of implicit resolution): when `git remote -v`
succeeds and no line of its output has `MaxScanTokenSize` bytes or more, count the
distinct remote names of the matching push records.  With none, the call fails with the
error "no apps in git remotes"; with exactly one name, it returns the identity of the
last matching record, with no error; with two or more, it fails with a
`multipleRemotesError` whose names are, as a set, the names of all matching records. -/
theorem appFromGitRemote_disambiguation (env : GitEnv) (clusters : List Cluster)
    (flagCluster b : Str) (hl : env.gitRemoteV = Except.ok b)
    (hshort : ∀ l ∈ textLines b, utf8Len l < MaxScanTokenSize) :
    (((matchingRecords clusters flagCluster (textLines b)).map Prod.fst).dedup.length = 0 →
      appFromGitRemote env clusters flagCluster [] = Except.ok (none, some noAppFound) ∧
      noAppFound.Error = some "no apps in git remotes".toList) ∧
    (((matchingRecords clusters flagCluster (textLines b)).map Prod.fst).dedup.length = 1 →
      ∃ n app, (matchingRecords clusters flagCluster (textLines b)).getLast? = some (n, app) ∧
        appFromGitRemote env clusters flagCluster [] = Except.ok (some app, none)) ∧
    (2 ≤ ((matchingRecords clusters flagCluster (textLines b)).map Prod.fst).dedup.length →
      ∃ names, appFromGitRemote env clusters flagCluster []
          = Except.ok (none, some (GoError.multipleRemotes names)) ∧
        ∀ n, n ∈ names ↔ n ∈ (matchingRecords clusters flagCluster (textLines b)).map Prod.fst) := by
  rw [appFromGitRemote_implicit env clusters flagCluster b hl hshort, ← insertAll_length]
  generalize hrecs : matchingRecords clusters flagCluster (textLines b) = recs
  refine ⟨?_, ?_, ?_⟩
  · intro h0
    have hm : insertAll ([] : GoMap remoteApp) recs = [] := List.length_eq_zero.1 h0
    rw [hm]
    exact ⟨rfl, by decide⟩
  · intro h1
    obtain ⟨e, hm⟩ := List.length_eq_one.1 h1
    obtain ⟨k, v⟩ := e
    have hne : recs ≠ [] := by
      intro hc
      rw [hc] at hm
      cases hm
    obtain ⟨r, hr⟩ : ∃ r, recs.getLast? = some r := by
      cases hg : recs.getLast? with
      | none => exact absurd (List.getLast?_eq_none_iff.1 hg) hne
      | some r => exact ⟨r, rfl⟩
    obtain ⟨n, app⟩ := r
    have hdec := List.dropLast_append_getLast? (n, app) hr
    have hmem : n ∈ (insertAll ([] : GoMap remoteApp) recs).map Prod.fst := by
      rw [insertAll_mem_keys]
      right
      rw [← hdec]
      simp
    rw [hm] at hmem
    simp only [List.map_cons, List.map_nil, List.mem_singleton] at hmem
    subst hmem
    have hlook := insertAll_lookup recs ([] : GoMap remoteApp) n
    rw [hm, lookup_cons_ite, if_pos rfl, ← hdec, List.reverse_append] at hlook
    simp only [List.reverse_cons, List.reverse_nil, List.nil_append, List.singleton_append,
      lookup_cons_ite, if_true, Option.or] at hlook
    refine ⟨n, app, hr, ?_⟩
    rw [hm, Option.some.inj hlook]
    rfl
  · intro h2
    refine ⟨(insertAll ([] : GoMap remoteApp) recs).map Prod.fst, ?_, ?_⟩
    · rw [if_pos (by omega)]
    · intro n
      rw [insertAll_mem_keys]
      simp only [List.map_nil, List.not_mem_nil, false_or]

/-- Witness of C3 as amended: a listing with two remotes of the example cluster. -/
theorem appFromGitRemote_disambiguation_witness :
    ∃ names, appFromGitRemote (listingEnv twoRemotesListing) [exampleCluster] [] []
        = Except.ok (none, some (GoError.multipleRemotes names)) ∧
      ∀ n, n ∈ names ↔
        n ∈ (matchingRecords [exampleCluster] [] (textLines twoRemotesListing)).map Prod.fst :=
  (appFromGitRemote_disambiguation (listingEnv twoRemotesListing) [exampleCluster] []
    twoRemotesListing rfl (by decide)).2.2 (by decide)

/-- Counterexample to C3 as stated: a listing with two matching push records of the
same remote name; the call returns the identity of the second one and no error. -/
theorem appFromGitRemote_two_push_records :
    (matchingRecords [exampleCluster] [] (textLines twoPushURLsListing)).length = 2 ∧
    appFromGitRemote (listingEnv twoPushURLsListing) [exampleCluster] [] []
      = Except.ok (some ⟨exampleCluster, "b".toList⟩, none) := by
  decide

/-- C6 as amended (listing leniency): for a listing in which no line has
`MaxScanTokenSize` bytes or more, `parseGitRemoteOutput` returns no error and a map
with distinct keys; the map has an entry for a remote name exactly when some line has
exactly the three fields name, URL, `(push)` with a URL matched by `appFromGitURL`, and
the entry is the match of the last such line for the name.  Lines with another number
of fields or another third field contribute nothing. -/
theorem parseGitRemoteOutput_lenient (clusters : List Cluster) (flagCluster b : Str)
    (hshort : ∀ l ∈ textLines b, utf8Len l < MaxScanTokenSize) :
    ∃ m, parseGitRemoteOutput clusters flagCluster b = Except.ok (m, none) ∧
      (m.map Prod.fst).Nodup ∧
      (∀ n, (∃ app, mapGet m n = some app) ↔
        ∃ line ∈ textLines b, ∃ url app, Fields line = [n, url, "(push)".toList] ∧
          appFromGitURL clusters flagCluster url = Except.ok (some app)) ∧
      (∀ n app, mapGet m n = some app ↔
        ∃ pre line post url, textLines b = pre ++ line :: post ∧
          Fields line = [n, url, "(push)".toList] ∧
          appFromGitURL clusters flagCluster url = Except.ok (some app) ∧
          ∀ l ∈ post, ∀ url2 app2, Fields l = [n, url2, "(push)".toList] →
            appFromGitURL clusters flagCluster url2 ≠ Except.ok (some app2)) := by
  refine ⟨_, parseGitRemoteOutput_short clusters flagCluster b hshort,
    insertAll_nodup _ _ List.nodup_nil, ?_, ?_⟩
  · intro n
    have h1 : (∃ app, mapGet (insertAll [] (matchingRecords clusters flagCluster (textLines b))) n
        = some app) ↔ n ∈ (matchingRecords clusters flagCluster (textLines b)).map Prod.fst := by
      unfold mapGet
      have hk := insertAll_mem_keys (matchingRecords clusters flagCluster (textLines b)) [] n
      simp only [List.map_nil, List.not_mem_nil, false_or] at hk
      rw [← Option.isSome_iff_exists, List.lookup_isSome_iff, ← hk]
      simp only [List.mem_map, Prod.exists, exists_and_right, exists_eq_right, beq_iff_eq]
      constructor
      · rintro ⟨k, ⟨v, hp⟩, hk⟩
        exact ⟨v, by rw [hk]; exact hp⟩
      · rintro ⟨v, hp⟩
        exact ⟨n, ⟨v, hp⟩, rfl⟩
    rw [h1]
    simp only [matchingRecords, List.mem_map, List.mem_filterMap, Prod.exists, exists_and_right,
      exists_eq_right]
    constructor
    · rintro ⟨app, line, hline, hrec⟩
      obtain ⟨url, hu, ha⟩ := (matchingRecord_iff _ _ _ _ _).1 hrec
      exact ⟨line, hline, url, app, hu, ha⟩
    · rintro ⟨line, hline, url, app, hu, ha⟩
      exact ⟨app, line, hline, (matchingRecord_iff _ _ _ _ _).2 ⟨url, hu, ha⟩⟩
  · intro n app
    unfold mapGet
    rw [insertAll_lookup]
    have h0 : ([] : GoMap remoteApp).lookup n = none := rfl
    have h1 : ∀ o : Option remoteApp, o.or none = o := by
      intro o; cases o <;> rfl
    rw [h0, h1]
    unfold matchingRecords
    rw [lookup_reverse_filterMap]
    constructor
    · rintro ⟨pre, line, post, hl, hrec, hpost⟩
      obtain ⟨url, hu, ha⟩ := (matchingRecord_iff _ _ _ _ _).1 hrec
      refine ⟨pre, line, post, url, hl, hu, ha, ?_⟩
      intro l hlp url2 app2 hu2 ha2
      exact hpost l hlp app2 ((matchingRecord_iff _ _ _ _ _).2 ⟨url2, hu2, ha2⟩)
    · rintro ⟨pre, line, post, url, hl, hu, ha, hpost⟩
      refine ⟨pre, line, post, hl, (matchingRecord_iff _ _ _ _ _).2 ⟨url, hu, ha⟩, ?_⟩
      intro l hlp w hrec
      obtain ⟨url2, hu2, ha2⟩ := (matchingRecord_iff _ _ _ _ _).1 hrec
      exact hpost l hlp url2 w hu2 ha2

/-- Witness of C6 as amended: a line of two fields, a fetch line and a well-formed
push line of the example cluster yield exactly one record. -/
theorem parseGitRemoteOutput_lenient_witness :
    (∃ m, parseGitRemoteOutput [exampleCluster] [] lenientListing = Except.ok (m, none) ∧
      (m.map Prod.fst).Nodup ∧
      (∀ n, (∃ app, mapGet m n = some app) ↔
        ∃ line ∈ textLines lenientListing, ∃ url app,
          Fields line = [n, url, "(push)".toList] ∧
          appFromGitURL [exampleCluster] [] url = Except.ok (some app)) ∧
      (∀ n app, mapGet m n = some app ↔
        ∃ pre line post url, textLines lenientListing = pre ++ line :: post ∧
          Fields line = [n, url, "(push)".toList] ∧
          appFromGitURL [exampleCluster] [] url = Except.ok (some app) ∧
          ∀ l ∈ post, ∀ url2 app2, Fields l = [n, url2, "(push)".toList] →
            appFromGitURL [exampleCluster] [] url2 ≠ Except.ok (some app2))) ∧
    parseGitRemoteOutput [exampleCluster] [] lenientListing
      = Except.ok ([("flynn".toList, ⟨exampleCluster, "app".toList⟩)], none) :=
  ⟨parseGitRemoteOutput_lenient [exampleCluster] [] lenientListing (by decide), by decide⟩

theorem utf8Len_replicate_a (n : Nat) : utf8Len (List.replicate n 'a') = n := by
  induction n with
  | zero => rfl
  | succ k ih =>
    have h : utf8Len (List.replicate (k + 1) 'a')
        = Char.utf8Size 'a' + utf8Len (List.replicate k 'a') := rfl
    rw [h, ih]
    have : Char.utf8Size 'a' = 1 := by decide
    omega

/-- Counterexample to C6 as stated: on a listing made of one line of
`MaxScanTokenSize` bytes, `parseGitRemoteOutput` returns the error `ErrTooLong`. -/
theorem parseGitRemoteOutput_long_line :
    parseGitRemoteOutput [exampleCluster] [] longLineListing
      = Except.ok ([], some GoError.ErrTooLong) := by
  have hsplit : Split longLineListing '\n' = [longLineListing] := by
    unfold Split longLineListing List.splitOn
    apply List.splitOnP_eq_single
    intro x hx
    rw [List.eq_of_mem_replicate hx]
    decide
  have hne : longLineListing ≠ [] := by
    intro hc
    have hl0 : (List.replicate MaxScanTokenSize 'a').length = 0 := by
      rw [show List.replicate MaxScanTokenSize 'a' = [] from hc]; rfl
    rw [List.length_replicate] at hl0
    exact absurd hl0 (by decide)
  have hlen : MaxScanTokenSize ≤ utf8Len longLineListing := by
    unfold longLineListing
    rw [utf8Len_replicate_a]
  have hscan : scanLines longLineListing = ([], some GoError.ErrTooLong) := by
    unfold scanLines
    rw [hsplit, scanTokens, if_neg hne, if_pos hlen]
  rw [parseGitRemoteOutput_eq, hscan]

/-- C8 as amended (listing failure): when no remote name is given and the listing
command fails, `appFromGitRemote` returns no identity and no error at all; this is not
the outcome "no apps in git remotes" of a listing with no matching remote. -/
theorem appFromGitRemote_listing_failure (gitConfigGet : Str → Except ExecError Str)
    (wdir : Str) (clusters : List Cluster) (flagCluster : Str) (e : ExecError) :
    appFromGitRemote ⟨gitConfigGet, Except.error e, wdir⟩ clusters flagCluster []
        = Except.ok (none, none) ∧
    appFromGitRemote ⟨gitConfigGet, Except.error e, wdir⟩ clusters flagCluster []
        ≠ Except.ok (none, some noAppFound) := by
  have h : appFromGitRemote ⟨gitConfigGet, Except.error e, wdir⟩ clusters flagCluster []
      = Except.ok (none, none) := rfl
  rw [h]
  exact ⟨rfl, by decide⟩

/-- Counterexample to C8 as stated: with a failing listing command the result is
`(nil, nil)`, while a successful empty listing gives the error "no apps in git
remotes". -/
theorem appFromGitRemote_listing_failure_differs :
    appFromGitRemote (failingEnv (ExecError.exitError 128)) [exampleCluster] [] []
      = Except.ok (none, none) ∧
    appFromGitRemote (listingEnv []) [exampleCluster] [] []
      = Except.ok (none, some noAppFound) := by
  decide

/-! ## Credentials -/

theorem runGitCredentials_not_get (operation stdin : Str)
    (readConfig : Except GoError (List Cluster)) (h : operation ≠ "get".toList) :
    runGitCredentials operation stdin readConfig = ([], none) := by
  unfold runGitCredentials
  rw [if_pos h]

theorem runGitCredentials_not_https (stdin : Str) (readConfig : Except GoError (List Cluster))
    (h : mapGetD (parseDetails stdin) "protocol".toList ≠ "https".toList) :
    runGitCredentials "get".toList stdin readConfig = ([], none) := by
  unfold runGitCredentials
  rw [if_neg (by exact fun hc => hc rfl)]
  simp only [if_pos h]

theorem runGitCredentials_config_error (stdin : Str) (e : GoError) :
    runGitCredentials "get".toList stdin (Except.error e) = ([], none) := by
  unfold runGitCredentials
  rw [if_neg (by exact fun hc => hc rfl)]
  by_cases h : mapGetD (parseDetails stdin) "protocol".toList ≠ "https".toList
  · simp only [if_pos h]
  · simp only [if_neg h]

theorem runGitCredentials_lookup (stdin : Str) (cs : List Cluster)
    (h : mapGetD (parseDetails stdin) "protocol".toList = "https".toList) :
    runGitCredentials "get".toList stdin (Except.ok cs)
      = match cs.find? (fun c => decide (c.Domain
          = TrimPrefix (mapGetD (parseDetails stdin) "host".toList) "git.".toList)) with
        | none => ([], none)
        | some cluster =>
          ("protocol=https\nusername=user\nhost=".toList
            ++ mapGetD (parseDetails stdin) "host".toList
            ++ "\npassword=".toList ++ cluster.Key ++ "\n".toList, none) := by
  unfold runGitCredentials
  rw [if_neg (by exact fun hc => hc rfl)]
  simp only [ne_eq, h, not_true_eq_false, if_false]

/-- C4 (credential response): for operation `get`, a request whose parsed protocol is
`https` and whose parsed host is `h`, and a loaded configuration in which `c` is the
first cluster whose domain is `h` without a leading `git.`, the output is exactly the
four lines protocol, username, host (the original host) and password (the key of
`c`), and the returned error is nil. -/
theorem runGitCredentials_response (stdin h : Str) (cs pre post : List Cluster) (c : Cluster)
    (hproto : mapGetD (parseDetails stdin) "protocol".toList = "https".toList)
    (hhost : mapGetD (parseDetails stdin) "host".toList = h)
    (hcs : cs = pre ++ c :: post)
    (hpre : ∀ x ∈ pre, x.Domain ≠ TrimPrefix h "git.".toList)
    (hc : c.Domain = TrimPrefix h "git.".toList) :
    runGitCredentials "get".toList stdin (Except.ok cs)
      = ("protocol=https\nusername=user\nhost=".toList ++ h ++ "\npassword=".toList
          ++ c.Key ++ "\n".toList, none) := by
  have hfind : cs.find? (fun x => decide (x.Domain = TrimPrefix h "git.".toList)) = some c := by
    rw [List.find?_eq_some]
    refine ⟨decide_eq_true hc, pre, post, hcs, ?_⟩
    intro a ha
    rw [Bool.not_eq_true', decide_eq_false_iff_not]
    exact hpre a ha
  rw [runGitCredentials_lookup stdin cs hproto, hhost, hfind]

/-- Witness of C4: the scenario of the specification. -/
theorem runGitCredentials_response_witness :
    runGitCredentials "get".toList exampleRequest (Except.ok [exampleCluster])
      = ("protocol=https\nusername=user\nhost=".toList ++ "git.example.com".toList
          ++ "\npassword=".toList ++ exampleCluster.Key ++ "\n".toList, none) ∧
    "protocol=https\nusername=user\nhost=".toList ++ "git.example.com".toList
          ++ "\npassword=".toList ++ exampleCluster.Key ++ "\n".toList
      = "protocol=https\nusername=user\nhost=git.example.com\npassword=abc123\n".toList :=
  ⟨runGitCredentials_response exampleRequest "git.example.com".toList [exampleCluster] [] []
    exampleCluster (by decide) (by decide) rfl (by decide) (by decide), by decide⟩

/-- C5 (silent on failure): `runGitCredentials` always returns a nil error, and it
prints something exactly when the operation is `get`, the parsed protocol is `https`,
the configuration loads and some cluster's domain is the request host without a leading
`git.`; otherwise it prints nothing.  So the request of the scenario with protocol
`ssh`, and a request for a host of no configured cluster, print nothing. -/
theorem runGitCredentials_silent (operation stdin : Str)
    (readConfig : Except GoError (List Cluster)) :
    (runGitCredentials operation stdin readConfig).2 = none ∧
    ((runGitCredentials operation stdin readConfig).1 ≠ [] ↔
      operation = "get".toList ∧
      mapGetD (parseDetails stdin) "protocol".toList = "https".toList ∧
      ∃ cs, readConfig = Except.ok cs ∧
        ∃ c ∈ cs, c.Domain = TrimPrefix (mapGetD (parseDetails stdin) "host".toList) "git.".toList) ∧
    runGitCredentials "get".toList
      "operation=get\nprotocol=ssh\nhost=git.example.com\n\n".toList
      (Except.ok [exampleCluster]) = ([], none) ∧
    runGitCredentials "get".toList
      "operation=get\nprotocol=https\nhost=git.unknown.com\n\n".toList
      (Except.ok [exampleCluster]) = ([], none) := by
  refine ⟨?_, ?_, by decide, by decide⟩
  · by_cases hop : operation = "get".toList
    · subst hop
      by_cases hproto : mapGetD (parseDetails stdin) "protocol".toList = "https".toList
      · cases readConfig with
        | error e => rw [runGitCredentials_config_error]
        | ok cs =>
          rw [runGitCredentials_lookup stdin cs hproto]
          split <;> rfl
      · rw [runGitCredentials_not_https stdin readConfig hproto]
    · rw [runGitCredentials_not_get operation stdin readConfig hop]
  · by_cases hop : operation = "get".toList
    · subst hop
      by_cases hproto : mapGetD (parseDetails stdin) "protocol".toList = "https".toList
      · cases readConfig with
        | error e =>
          rw [runGitCredentials_config_error]
          constructor
          · intro hc; exact absurd rfl hc
          · rintro ⟨_, _, cs, hcs, _⟩; cases hcs
        | ok cs =>
          rw [runGitCredentials_lookup stdin cs hproto]
          cases hfind : cs.find? (fun x => decide (x.Domain
              = TrimPrefix (mapGetD (parseDetails stdin) "host".toList) "git.".toList)) with
          | none =>
            constructor
            · intro hc; exact absurd rfl hc
            · rintro ⟨_, _, cs2, hcs, c, hc, hd⟩
              cases hcs
              have := List.find?_eq_none.1 hfind c hc
              exact absurd (decide_eq_true hd) this
          | some c =>
            have h1 := List.find?_some hfind
            have h2 := List.mem_of_find?_eq_some hfind
            rw [decide_eq_true_eq] at h1
            constructor
            · intro _; exact ⟨rfl, hproto, cs, rfl, c, h2, h1⟩
            · intro _ hc
              have := congrArg List.length hc
              simp at this
      · rw [runGitCredentials_not_https stdin readConfig hproto]
        constructor
        · intro hc; exact absurd rfl hc
        · rintro ⟨_, hp, _⟩; exact absurd hp hproto
    · rw [runGitCredentials_not_get operation stdin readConfig hop]
      constructor
      · intro hc; exact absurd rfl hc
      · rintro ⟨ho, _⟩; exact absurd ho hop

/-! ## Names -/

/-- Counterexample to C7 as stated: the URL made of the prefix of the example cluster
and `.git` is matched with the empty application name. -/
theorem appFromGitURL_empty_name :
    appFromGitURL [exampleCluster] [] "https://git.example.com/.git".toList
      = Except.ok (some ⟨exampleCluster, []⟩) := by
  decide

/-- C7 as amended (application name): whenever `appFromGitURL` returns a cluster and a
name, the name is the text of the URL between the cluster's prefix and the final
`.git`, and it is not checked: it is non-empty exactly when the URL is longer than
prefix and suffix together, it has no slash exactly when the URL has no slash after the
prefix, and it differs from `.git` exactly when the URL is not the prefix followed by
`.git.git`. -/
theorem appFromGitURL_name_unchecked (cs : List Cluster) (flagCluster u : Str) (c : Cluster)
    (name : Str) (h : appFromGitURL cs flagCluster u = Except.ok (some ⟨c, name⟩)) :
    ∃ p, clusterPrefix c = some p ∧ u = p ++ name ++ ".git".toList ∧
      (name ≠ [] ↔ p.length + 4 < u.length) ∧
      ('/' ∉ name ↔ '/' ∉ u.drop p.length) ∧
      (name ≠ ".git".toList ↔ u ≠ p ++ ".git.git".toList) := by
  rw [appFromGitURL_eq] at h
  simp only [Except.ok.injEq] at h
  obtain ⟨x, _, hx⟩ := List.exists_of_findSome?_eq_some h
  obtain ⟨_, p, name2, hp, hu, hr⟩ := (matchCluster_eq_some _ _ _ _).1 hx
  simp only [remoteApp.mk.injEq] at hr
  obtain ⟨hcx, hn⟩ := hr
  subst hcx hn
  refine ⟨p, hp, hu, ?_, ?_, ?_⟩
  · rw [hu]
    simp only [List.length_append, gitURLSuffix_eq, List.length_cons, List.length_nil]
    rw [← List.length_pos]
    omega
  · rw [hu, List.append_assoc, List.drop_left]
    simp only [List.mem_append, gitURLSuffix_eq, List.mem_cons, List.mem_singleton,
      List.not_mem_nil, or_false, not_or]
    constructor
    · intro hn; exact ⟨hn, by decide⟩
    · intro hn; exact hn.1
  · rw [hu, List.append_assoc]
    have h2 : p ++ ".git.git".toList = p ++ (".git".toList ++ gitURLSuffix) := rfl
    rw [h2, not_iff_not]
    constructor
    · intro hn; rw [hn]
    · intro hn; exact List.append_cancel_right (List.append_cancel_left hn)

/-- Witness of C7 as amended, at a URL of the example cluster. -/
theorem appFromGitURL_name_unchecked_witness :
    ∃ p, clusterPrefix exampleCluster = some p ∧
      "https://git.example.com/app.git".toList = p ++ "app".toList ++ ".git".toList ∧
      ("app".toList ≠ [] ↔ p.length + 4 < "https://git.example.com/app.git".toList.length) ∧
      ('/' ∉ "app".toList ↔ '/' ∉ "https://git.example.com/app.git".toList.drop p.length) ∧
      ("app".toList ≠ ".git".toList ↔
        "https://git.example.com/app.git".toList ≠ p ++ ".git.git".toList) :=
  appFromGitURL_name_unchecked [exampleCluster] [] "https://git.example.com/app.git".toList
    exampleCluster "app".toList (by decide)

/-- C10 (domain precedence): for a cluster whose domain and git host are both
non-empty, `gitURL` builds the HTTPS form, `appFromGitURL` against the one-cluster list
(no scope filter, or the filter equal to the cluster's name) matches a URL exactly when
it starts with `https://git.<domain>/` and ends with `.git`, and the SSH-form URL of
the git host is not matched. -/
theorem domain_precedence (C : Cluster) (a : Str) (hd : C.Domain ≠ []) (_hg : C.GitHost ≠ []) :
    gitURL C a = "https://git.".toList ++ C.Domain ++ "/".toList ++ a ++ ".git".toList ∧
    (∀ flagCluster u, (flagCluster = [] ∨ flagCluster = C.Name) →
      ((∃ r, appFromGitURL [C] flagCluster u = Except.ok (some r)) ↔
        ("https://git.".toList ++ C.Domain ++ "/".toList) <+: u ∧ ".git".toList <:+ u)) ∧
    (∀ flagCluster, appFromGitURL [C] flagCluster
      ("ssh://git@".toList ++ C.GitHost ++ "/".toList ++ a ++ ".git".toList) = Except.ok none) := by
  have hp : clusterPrefix C = some ("https://git.".toList ++ C.Domain ++ "/".toList) := by
    unfold clusterPrefix
    rw [if_pos hd]
    rfl
  refine ⟨gitURL_of_clusterPrefix hp a, ?_, ?_⟩
  · intro flagCluster u hf
    rw [appFromGitURL_eq, List.findSome?_cons, List.findSome?_nil]
    constructor
    · rintro ⟨r, hr⟩
      cases hm : matchCluster flagCluster u C with
      | none => rw [hm] at hr; cases hr
      | some r2 =>
        obtain ⟨_, p, name, hp2, hu, _⟩ := (matchCluster_eq_some _ _ _ _).1 hm
        rw [hp] at hp2
        rw [← Option.some.inj hp2] at hu
        rw [hu]
        exact ⟨⟨name ++ gitURLSuffix, by simp⟩, ⟨_, rfl⟩⟩
    · rintro ⟨h1, h2⟩
      obtain ⟨name, hu⟩ := url_decompose hp h1 h2
      have hm : matchCluster flagCluster u C = some ⟨C, name⟩ :=
        (matchCluster_eq_some _ _ _ _).2 ⟨hf.imp id Eq.symm, _, name, hp, hu, rfl⟩
      rw [hm]
      exact ⟨_, rfl⟩
  · intro flagCluster
    rw [appFromGitURL_eq, List.findSome?_cons, List.findSome?_nil]
    cases hm : matchCluster flagCluster
        ("ssh://git@".toList ++ C.GitHost ++ "/".toList ++ a ++ ".git".toList) C with
    | none => rfl
    | some r =>
      obtain ⟨_, p, name, hp2, hu, _⟩ := (matchCluster_eq_some _ _ _ _).1 hm
      rw [hp] at hp2
      rw [← Option.some.inj hp2] at hu
      have e1 : "ssh://git@".toList ++ C.GitHost ++ "/".toList ++ a ++ ".git".toList
          = 's' :: ("sh://git@".toList ++ C.GitHost ++ "/".toList ++ a ++ ".git".toList) := rfl
      have e2 : "https://git.".toList ++ C.Domain ++ "/".toList ++ name ++ gitURLSuffix
          = 'h' :: ("ttps://git.".toList ++ C.Domain ++ "/".toList ++ name ++ gitURLSuffix) := rfl
      rw [e1, e2] at hu
      exact absurd (List.cons.inj hu).1 (by decide)

/-- Witness of C10 at the example cluster with a domain and a git host. -/
theorem domain_precedence_witness :
    gitURL bothCluster "app".toList
      = "https://git.".toList ++ bothCluster.Domain ++ "/".toList ++ "app".toList
          ++ ".git".toList ∧
    (∀ flagCluster u, (flagCluster = [] ∨ flagCluster = bothCluster.Name) →
      ((∃ r, appFromGitURL [bothCluster] flagCluster u = Except.ok (some r)) ↔
        ("https://git.".toList ++ bothCluster.Domain ++ "/".toList) <+: u
          ∧ ".git".toList <:+ u)) ∧
    (∀ flagCluster, appFromGitURL [bothCluster] flagCluster
      ("ssh://git@".toList ++ bothCluster.GitHost ++ "/".toList ++ "app".toList
        ++ ".git".toList) = Except.ok none) :=
  domain_precedence bothCluster "app".toList (by decide) (by decide)

/-! ## Resolution by name -/

theorem Sprintf_cons_ne (c : Char) (rest : Str) (args : List Str) (h : c ≠ '%') :
    Sprintf (c :: rest) args = (Sprintf rest args).map (fun r => c :: r) := by
  conv_lhs => unfold Sprintf
  simp only [ne_eq, h, not_false_eq_true, if_true]

theorem Sprintf_no_percent (f : Str) (h : '%' ∉ f) : Sprintf f [] = some f := by
  induction f with
  | nil => rfl
  | cons c t ih =>
    have hc : c ≠ '%' := fun hc => h (hc ▸ List.mem_cons_self _ _)
    have ht : '%' ∉ t := fun ht => h (List.mem_cons_of_mem _ ht)
    rw [Sprintf_cons_ne c t [] hc, ih ht]
    rfl

theorem Sprintf_literal_s (lit a : Str) (h : '%' ∉ lit) :
    Sprintf (lit ++ "%s".toList) [a] = some (lit ++ a) := by
  induction lit with
  | nil =>
    have : Sprintf ("%s".toList) [a] = some (a ++ []) := by
      rw [show "%s".toList = ['%', 's'] from rfl]
      unfold Sprintf
      simp only [ne_eq, not_true_eq_false, if_false]
      have h1 : ¬ ('s' = '%') := by decide
      simp only [h1, if_false, true_or, if_true]
      rfl
    rw [List.nil_append, List.nil_append, this, List.append_nil]
  | cons c t ih =>
    have hc : c ≠ '%' := fun hc => h (hc ▸ List.mem_cons_self _ _)
    have ht : '%' ∉ t := fun ht => h (List.mem_cons_of_mem _ ht)
    rw [List.cons_append, Sprintf_cons_ne c _ [a] hc, ih ht]
    rfl

/-- Resolution by name when the remote name has no percent sign: exit status 1 of the
lookup gives the error "could not find git remote r in <working dir>", any other
failure is returned as it is, and a successful lookup gives the match of the trimmed
output, or the error "could not find app name in r git remote" when there is none. -/
theorem appFromGitRemote_by_name (env : GitEnv) (cs : List Cluster) (flagCluster r : Str)
    (hr : r ≠ []) (hpct : '%' ∉ r) :
    (env.gitConfigGet ("remote.".toList ++ r ++ ".url".toList)
        = Except.error (ExecError.exitError 1) →
      ∃ e, appFromGitRemote env cs flagCluster r = Except.ok (none, some e) ∧
        e.Error = some ("could not find git remote ".toList ++ r ++ " in ".toList ++ env.wdir)) ∧
    (∀ x, env.gitConfigGet ("remote.".toList ++ r ++ ".url".toList) = Except.error x →
      x ≠ ExecError.exitError 1 →
      appFromGitRemote env cs flagCluster r = Except.ok (none, some (GoError.exec x))) ∧
    (∀ o, env.gitConfigGet ("remote.".toList ++ r ++ ".url".toList) = Except.ok o →
      (appFromGitURL cs flagCluster (TrimSpace o) = Except.ok none →
        ∃ e, appFromGitRemote env cs flagCluster r = Except.ok (none, some e) ∧
          e.Error = some ("could not find app name in ".toList ++ r ++ " git remote".toList)) ∧
      (∀ app, appFromGitURL cs flagCluster (TrimSpace o) = Except.ok (some app) →
        appFromGitRemote env cs flagCluster r = Except.ok (some app, none))) := by
  refine ⟨?_, ?_, ?_⟩
  · intro h
    refine ⟨GoError.errorf
      ("could not find git remote ".toList ++ r ++ " in %s".toList) [env.wdir], ?_, ?_⟩
    · unfold appFromGitRemote
      rw [if_pos hr, h]
      rfl
    have hlit : '%' ∉ "could not find git remote ".toList ++ r ++ " in ".toList := by
      simp only [List.mem_append, not_or]
      exact ⟨⟨by decide, hpct⟩, by decide⟩
    have := Sprintf_literal_s _ env.wdir hlit
    simp only [List.append_assoc] at this ⊢
    exact this
  · intro x h hx
    unfold appFromGitRemote
    rw [if_pos hr, h]
    have hnf : isNotFound (GoError.exec x) = false := by
      cases x with
      | exitError st =>
        have hst : st ≠ 1 := fun hc => hx (by rw [hc])
        simp only [isNotFound, beq_eq_false_iff_ne, ne_eq]
        exact hst
      | other msg => rfl
    simp only [hnf, Bool.false_eq_true, if_false]
  · intro o h
    constructor
    · intro hm
      refine ⟨GoError.errorf
        ("could not find app name in ".toList ++ r ++ " git remote".toList) [], ?_, ?_⟩
      · unfold appFromGitRemote
        rw [if_pos hr, h]
        simp only [hm]
      apply Sprintf_no_percent
      simp only [List.mem_append, not_or]
      exact ⟨⟨by decide, hpct⟩, by decide⟩
    · intro app hm
      unfold appFromGitRemote
      rw [if_pos hr, h]
      simp only [hm]

/-- C9 at a remote name with a percent sign: for the remote name `%s`, a lookup that
ends with exit status 1 and the working directory `/w`, the error message is
"could not find git remote /w in %!s(MISSING)" and not
"could not find git remote %s in /w"; and when the lookup prints a URL of no cluster,
the message is "could not find app name in %!s(MISSING) git remote". -/
theorem appFromGitRemote_percent_remote :
    (∃ e, appFromGitRemote (listingEnv []) [exampleCluster] [] "%s".toList
        = Except.ok (none, some e) ∧
      e.Error = some "could not find git remote /w in %!s(MISSING)".toList ∧
      e.Error ≠ some "could not find git remote %s in /w".toList) ∧
    (∃ e, appFromGitRemote ⟨fun _ => Except.ok "https://other.org/x.git\n".toList,
          Except.ok [], "/w".toList⟩ [exampleCluster] [] "%s".toList
        = Except.ok (none, some e) ∧
      e.Error = some "could not find app name in %!s(MISSING) git remote".toList ∧
      e.Error ≠ some "could not find app name in %s git remote".toList) := by
  refine ⟨⟨_, rfl, ?_, ?_⟩, ⟨_, rfl, ?_, ?_⟩⟩ <;> decide

/-! ## Matching: inverse, scope filter and slice safety -/

/-- C15 (match is inverted by build): whenever `appFromGitURL` returns a cluster and a
name for a URL, the name is the text of the URL strictly between the cluster's prefix
and the suffix `.git`, and `gitURL` of the cluster and the name is the URL. -/
theorem gitURL_of_appFromGitURL (cs : List Cluster) (flagCluster u : Str) (c : Cluster)
    (name : Str) (h : appFromGitURL cs flagCluster u = Except.ok (some ⟨c, name⟩)) :
    gitURL c name = u ∧
      ∃ p, clusterPrefix c = some p ∧ u = p ++ name ++ ".git".toList := by
  rw [appFromGitURL_eq] at h
  simp only [Except.ok.injEq] at h
  obtain ⟨x, _, hx⟩ := List.exists_of_findSome?_eq_some h
  obtain ⟨_, p, name2, hp, hu, hr⟩ := (matchCluster_eq_some _ _ _ _).1 hx
  simp only [remoteApp.mk.injEq] at hr
  obtain ⟨hcx, hn⟩ := hr
  subst hcx hn
  exact ⟨by rw [gitURL_of_clusterPrefix hp, hu], p, hp, hu⟩

/-- Witness of C15 at a URL of the example cluster. -/
theorem gitURL_of_appFromGitURL_witness :
    gitURL exampleCluster "app".toList = "https://git.example.com/app.git".toList ∧
      ∃ p, clusterPrefix exampleCluster = some p ∧
        "https://git.example.com/app.git".toList = p ++ "app".toList ++ ".git".toList :=
  gitURL_of_appFromGitURL [sshCluster, exampleCluster] []
    "https://git.example.com/app.git".toList exampleCluster "app".toList (by decide)

theorem matchCluster_filter (flagCluster u : Str) (c : Cluster) (hf : flagCluster ≠ []) :
    matchCluster flagCluster u c
      = if c.Name = flagCluster then matchCluster [] u c else none := by
  unfold matchCluster
  by_cases hn : c.Name = flagCluster
  · have h1 : ¬ (flagCluster ≠ [] ∧ c.Name ≠ flagCluster) := fun hc => hc.2 hn
    have h2 : ¬ (([] : Str) ≠ [] ∧ c.Name ≠ []) := fun hc => hc.1 rfl
    rw [if_neg h1, if_pos hn, if_neg h2]
  · rw [if_pos ⟨hf, hn⟩, if_neg hn]

theorem findSome_matchCluster_filter (cs : List Cluster) (flagCluster u : Str)
    (hf : flagCluster ≠ []) :
    cs.findSome? (matchCluster flagCluster u)
      = (cs.filter (fun c => decide (c.Name = flagCluster))).findSome? (matchCluster [] u) := by
  induction cs with
  | nil => rfl
  | cons c t ih =>
    rw [List.findSome?_cons, matchCluster_filter flagCluster u c hf, List.filter_cons]
    by_cases hn : c.Name = flagCluster
    · rw [if_pos hn, if_pos (decide_eq_true hn), List.findSome?_cons, ih]
    · rw [if_neg hn, if_neg (by rw [decide_eq_true_eq]; exact hn), ih]

/-- C17 (scope filter): with a non-empty `flagCluster`, `appFromGitURL` returns what
unfiltered matching returns on the sublist of the clusters named `flagCluster`; a
returned cluster has that name; and a URL built from a cluster of another name that
matches no cluster named `flagCluster` gives nil. -/
theorem appFromGitURL_scope_filter (cs : List Cluster) (flagCluster u : Str)
    (hf : flagCluster ≠ []) :
    appFromGitURL cs flagCluster u
      = appFromGitURL (cs.filter (fun c => decide (c.Name = flagCluster))) [] u ∧
    (∀ c name, appFromGitURL cs flagCluster u = Except.ok (some ⟨c, name⟩) →
      c.Name = flagCluster) ∧
    (∀ C a, C.Name ≠ flagCluster →
      (∀ c ∈ cs, c.Name = flagCluster → specMatches (gitURL C a) c = false) →
      appFromGitURL cs flagCluster (gitURL C a) = Except.ok none) := by
  refine ⟨?_, ?_, ?_⟩
  · rw [appFromGitURL_eq, appFromGitURL_eq, findSome_matchCluster_filter cs flagCluster u hf]
  · intro c name h
    rw [appFromGitURL_eq] at h
    simp only [Except.ok.injEq] at h
    obtain ⟨x, _, hx⟩ := List.exists_of_findSome?_eq_some h
    obtain ⟨hfx, p, name2, _, _, hr⟩ := (matchCluster_eq_some _ _ _ _).1 hx
    simp only [remoteApp.mk.injEq] at hr
    rw [hr.1]
    rcases hfx with h0 | h0
    · exact absurd h0 hf
    · exact h0
  · intro C a _ hno
    rw [appFromGitURL_eq]
    simp only [Except.ok.injEq, List.findSome?_eq_none_iff]
    intro c hc
    rw [matchCluster_eq_none]
    by_cases hn : c.Name = flagCluster
    · exact Or.inr (hno c hc hn)
    · exact Or.inl ⟨hf, hn⟩

/-- Witness of C17: two clusters of the same domain, the filter naming the second. -/
theorem appFromGitURL_scope_filter_witness :
    (appFromGitURL [exampleCluster, bothCluster] "both".toList
        "https://git.example.com/app.git".toList
      = appFromGitURL ([exampleCluster, bothCluster].filter
          (fun c => decide (c.Name = "both".toList))) [] "https://git.example.com/app.git".toList ∧
    (∀ c name, appFromGitURL [exampleCluster, bothCluster] "both".toList
        "https://git.example.com/app.git".toList = Except.ok (some ⟨c, name⟩) →
      c.Name = "both".toList) ∧
    (∀ C a, C.Name ≠ "both".toList →
      (∀ c ∈ [exampleCluster, bothCluster], c.Name = "both".toList →
        specMatches (gitURL C a) c = false) →
      appFromGitURL [exampleCluster, bothCluster] "both".toList (gitURL C a) = Except.ok none)) ∧
    appFromGitURL [exampleCluster, bothCluster] "both".toList
        "https://git.example.com/app.git".toList
      = Except.ok (some ⟨bothCluster, "app".toList⟩) :=
  ⟨appFromGitURL_scope_filter [exampleCluster, bothCluster] "both".toList
    "https://git.example.com/app.git".toList (by decide), by decide⟩

theorem utf8Len_append (a b : Str) : utf8Len (a ++ b) = utf8Len a + utf8Len b := by
  unfold utf8Len
  rw [List.map_append, List.sum_append]

/-- Bounds of the slice for any prefix that ends in a slash. -/
theorem slice_in_bounds (q u : Str) (hp : HasPrefix u (q ++ ['/']) = true)
    (hs : HasSuffix u gitURLSuffix = true) :
    ((q ++ ['/']).length : Int) ≤ (u.length : Int) - (gitURLSuffix.length : Int) ∧
    utf8Len (q ++ ['/']) + utf8Len gitURLSuffix ≤ utf8Len u ∧
    ∃ name, slice u (q ++ ['/']).length ((u.length : Int) - (gitURLSuffix.length : Int))
      = Except.ok name := by
  unfold HasPrefix at hp
  unfold HasSuffix at hs
  rw [List.isPrefixOf_iff_prefix] at hp
  rw [List.isSuffixOf_iff_suffix] at hs
  obtain ⟨t, rfl⟩ := hp
  obtain ⟨name, rfl⟩ := suffix_after_slash hs
  have hu : q ++ ['/'] ++ (name ++ gitURLSuffix) = (q ++ ['/']) ++ name ++ gitURLSuffix := by
    simp only [List.append_assoc]
  rw [hu]
  refine ⟨?_, ?_, name, slice_decomposed (q ++ ['/']) name⟩
  · simp only [List.length_append]
    push_cast
    omega
  · rw [utf8Len_append (q ++ ['/'] ++ name), utf8Len_append (q ++ ['/']) name]
    omega

/-- C18 (slice safety): for every URL and every domain or git host, if the URL starts
with the computed prefix and ends with `.git`, the length of the prefix is at most the
length of the URL minus the length of the suffix (in characters and in bytes), the
slice of line 112 is within bounds, and `appFromGitURL` never panics. -/
theorem appFromGitURL_slice_safe :
    (∀ domain u : Str, HasPrefix u (gitHTTPURLPre domain) = true →
      HasSuffix u gitURLSuffix = true →
      ((gitHTTPURLPre domain).length : Int) ≤ (u.length : Int) - (gitURLSuffix.length : Int) ∧
      utf8Len (gitHTTPURLPre domain) + utf8Len gitURLSuffix ≤ utf8Len u ∧
      ∃ name, slice u (gitHTTPURLPre domain).length
        ((u.length : Int) - (gitURLSuffix.length : Int)) = Except.ok name) ∧
    (∀ gitHost u : Str, HasPrefix u (gitSSHURLPre gitHost) = true →
      HasSuffix u gitURLSuffix = true →
      ((gitSSHURLPre gitHost).length : Int) ≤ (u.length : Int) - (gitURLSuffix.length : Int) ∧
      utf8Len (gitSSHURLPre gitHost) + utf8Len gitURLSuffix ≤ utf8Len u ∧
      ∃ name, slice u (gitSSHURLPre gitHost).length
        ((u.length : Int) - (gitURLSuffix.length : Int)) = Except.ok name) ∧
    (∀ (cs : List Cluster) (flagCluster u : Str),
      ∃ r, appFromGitURL cs flagCluster u = Except.ok r) := by
  refine ⟨?_, ?_, ?_⟩
  · intro domain u hp hs
    rw [gitHTTPURLPre_eq] at hp ⊢
    exact slice_in_bounds _ u hp hs
  · intro gitHost u hp hs
    rw [gitSSHURLPre_eq] at hp ⊢
    exact slice_in_bounds _ u hp hs
  · intro cs flagCluster u
    exact ⟨_, appFromGitURL_eq cs flagCluster u⟩

/-! ## The credential request -/

theorem requestPair_iff (l k v : Str) :
    requestPair l = some (k, v) ↔ l = k ++ '=' :: v ∧ '=' ∉ k := by
  induction l generalizing k with
  | nil =>
    constructor
    · intro h; cases h
    · rintro ⟨h, _⟩
      cases k <;> cases h
  | cons c t ih =>
    by_cases hc : c = '='
    · subst hc
      have hreq : requestPair ('=' :: t) = some ([], t) := by
        unfold requestPair
        rw [if_pos (List.mem_cons_self _ _)]
        rfl
      rw [hreq]
      constructor
      · intro h
        simp only [Option.some.injEq, Prod.mk.injEq] at h
        rw [← h.1, ← h.2]
        exact ⟨rfl, List.not_mem_nil _⟩
      · rintro ⟨h, hk⟩
        cases k with
        | nil =>
          simp only [List.nil_append, List.cons.injEq, true_and] at h
          rw [h]
        | cons x k2 =>
          simp only [List.cons_append, List.cons.injEq] at h
          exact absurd (h.1 ▸ List.mem_cons_self x k2) hk
    · have hreq : requestPair (c :: t)
          = (requestPair t).map (fun r => (c :: r.1, r.2)) := by
        unfold requestPair
        have hmem : ('=' ∈ c :: t) ↔ ('=' ∈ t) := by
          rw [List.mem_cons]
          constructor
          · rintro (h | h)
            · exact absurd h.symm hc
            · exact h
          · exact Or.inr
        by_cases ht : '=' ∈ t
        · rw [if_pos (hmem.2 ht), if_pos ht]
          simp only [Option.map_some', List.takeWhile_cons, List.dropWhile_cons, ne_eq, hc,
            not_false_eq_true, decide_True, if_true]
        · rw [if_neg (fun h => ht (hmem.1 h)), if_neg ht]
          rfl
      rw [hreq]
      constructor
      · intro h
        cases hr : requestPair t with
        | none => rw [hr] at h; cases h
        | some r =>
          obtain ⟨a, b⟩ := r
          rw [hr] at h
          simp only [Option.map_some', Option.some.injEq, Prod.mk.injEq] at h
          obtain ⟨ht, hk⟩ := (ih a).1 (by rw [hr, h.2])
          rw [← h.1, ht]
          refine ⟨rfl, ?_⟩
          intro hm
          rcases List.mem_cons.1 hm with hm | hm
          · exact hc hm.symm
          · exact hk hm
      · rintro ⟨h, hk⟩
        cases k with
        | nil =>
          simp only [List.nil_append, List.cons.injEq] at h
          exact absurd h.1 hc
        | cons x k2 =>
          simp only [List.cons_append, List.cons.injEq] at h
          have hk2 : '=' ∉ k2 := fun hm => hk (List.mem_cons_of_mem _ hm)
          rw [(ih k2).2 ⟨h.2, hk2⟩, h.1]
          rfl

theorem parseDetails_fold (lines : List Str) (m : GoMap Str) :
    lines.foldl
      (fun details l =>
        match SplitN2 l '=' with
        | [k, v] => mapSet details k v
        | _ => details) m
      = insertAll m (lines.filterMap requestPair) := by
  induction lines generalizing m with
  | nil => rfl
  | cons l t ih =>
    rw [List.foldl_cons, ih, List.filterMap_cons]
    unfold SplitN2 requestPair
    by_cases h : '=' ∈ l
    · simp only [if_pos h]
      rfl
    · simp only [if_neg h]

theorem parseDetails_eq (stdin : Str) :
    parseDetails stdin = insertAll [] ((Split stdin '\n').filterMap requestPair) := by
  unfold parseDetails
  exact parseDetails_fold _ _

/-- C12 (last occurrence wins): the parsed mapping sends a key to a value exactly when
the last of the newline-separated lines whose text before the first `=` is the key has
the value as its text after that `=`; lines without `=` add nothing.  So the text of
three lines `a=1`, `b`, `a=2=3` parses to the single entry of `a` with value `2=3`. -/
theorem parseDetails_last_wins (stdin k v : Str) :
    (mapGet (parseDetails stdin) k = some v ↔
      ∃ pre line post, Split stdin '\n' = pre ++ line :: post ∧
        line = k ++ '=' :: v ∧ '=' ∉ k ∧
        ∀ l ∈ post, ∀ w, ¬ (l = k ++ '=' :: w)) ∧
    parseDetails "a=1\nb\na=2=3\n".toList = [("a".toList, "2=3".toList)] := by
  refine ⟨?_, by decide⟩
  unfold mapGet
  rw [parseDetails_eq, insertAll_lookup]
  have h0 : ([] : GoMap Str).lookup k = none := rfl
  have h1 : ∀ o : Option Str, o.or none = o := by
    intro o; cases o <;> rfl
  rw [h0, h1, lookup_reverse_filterMap]
  constructor
  · rintro ⟨pre, line, post, hl, hrec, hpost⟩
    obtain ⟨hline, hk⟩ := (requestPair_iff _ _ _).1 hrec
    refine ⟨pre, line, post, hl, hline, hk, ?_⟩
    intro l hlp w hlw
    exact hpost l hlp w ((requestPair_iff _ _ _).2 ⟨hlw, hk⟩)
  · rintro ⟨pre, line, post, hl, hline, hk, hpost⟩
    refine ⟨pre, line, post, hl, (requestPair_iff _ _ _).2 ⟨hline, hk⟩, ?_⟩
    intro l hlp w hrec
    exact hpost l hlp w ((requestPair_iff _ _ _).1 hrec).1

theorem filterMap_requestPair_filter (lines : List Str) :
    (lines.filter (fun l => decide ('=' ∈ l))).filterMap requestPair
      = lines.filterMap requestPair := by
  induction lines with
  | nil => rfl
  | cons l t ih =>
    rw [List.filter_cons]
    by_cases h : '=' ∈ l
    · rw [if_pos (decide_eq_true h), List.filterMap_cons, List.filterMap_cons, ih]
    · rw [if_neg (by rw [decide_eq_true_eq]; exact h), List.filterMap_cons, ih]
      have : requestPair l = none := by
        unfold requestPair
        rw [if_neg h]
      rw [this]

/-- C16 as amended (the request is the whole input): the response of
`runGitCredentials` depends only on the sequence of the lines of standard input that
contain `=`, taken over the whole text: two texts with the same such lines give the
same response.  A blank line does not end the request. -/
theorem runGitCredentials_all_lines (operation s1 s2 : Str)
    (readConfig : Except GoError (List Cluster))
    (h : (Split s1 '\n').filter (fun l => decide ('=' ∈ l))
       = (Split s2 '\n').filter (fun l => decide ('=' ∈ l))) :
    runGitCredentials operation s1 readConfig = runGitCredentials operation s2 readConfig := by
  have hpd : parseDetails s1 = parseDetails s2 := by
    rw [parseDetails_eq, parseDetails_eq, ← filterMap_requestPair_filter (Split s1 '\n'),
      ← filterMap_requestPair_filter (Split s2 '\n'), h]
  unfold runGitCredentials
  rw [hpd]

/-- Witness of C16 as amended: the request of the scenario and the same lines with the
blank line moved before `protocol` give the same response. -/
theorem runGitCredentials_all_lines_witness :
    runGitCredentials "get".toList exampleRequest (Except.ok [exampleCluster])
      = runGitCredentials "get".toList
          "operation=get\n\nprotocol=https\nhost=git.example.com".toList
          (Except.ok [exampleCluster]) :=
  runGitCredentials_all_lines "get".toList exampleRequest
    "operation=get\n\nprotocol=https\nhost=git.example.com".toList
    (Except.ok [exampleCluster]) (by decide)

/-- Counterexample to C16 as stated: two inputs with the same lines before the first
blank line; the line `protocol=https` after the blank line changes the response from
nothing to the credentials. -/
theorem runGitCredentials_after_blank_line :
    runGitCredentials "get".toList "protocol=ssh\nhost=git.example.com\n\n".toList
      (Except.ok [exampleCluster]) = ([], none) ∧
    runGitCredentials "get".toList
      "protocol=ssh\nhost=git.example.com\n\nprotocol=https\n".toList
      (Except.ok [exampleCluster])
      = ("protocol=https\nusername=user\nhost=git.example.com\npassword=abc123\n".toList, none) := by
  decide

/-- C19 at a cluster without a domain: for operation `get`, a request with protocol
`https` and no host (or an empty host) and a configuration holding a cluster whose
domain is empty, `runGitCredentials` prints that cluster's key. -/
theorem runGitCredentials_no_host_prints_key :
    runGitCredentials "get".toList "protocol=https\n\n".toList (Except.ok [sshCluster])
      = ("protocol=https\nusername=user\nhost=\npassword=k0\n".toList, none) ∧
    runGitCredentials "get".toList "protocol=https\nhost=\n\n".toList
      (Except.ok [exampleCluster, sshCluster])
      = ("protocol=https\nusername=user\nhost=\npassword=k0\n".toList, none) := by
  decide

/-- A request without a host gets no response when every configured cluster has a
non-empty domain. -/
theorem runGitCredentials_no_host_silent (operation stdin : Str) (cs : List Cluster)
    (hhost : mapGetD (parseDetails stdin) "host".toList = [])
    (hdom : ∀ c ∈ cs, c.Domain ≠ []) :
    runGitCredentials operation stdin (Except.ok cs) = ([], none) := by
  by_cases hop : operation = "get".toList
  · subst hop
    by_cases hproto : mapGetD (parseDetails stdin) "protocol".toList = "https".toList
    · rw [runGitCredentials_lookup stdin cs hproto, hhost]
      have hfind : cs.find? (fun c => decide (c.Domain = TrimPrefix [] "git.".toList)) = none := by
        rw [List.find?_eq_none]
        intro c hc
        rw [decide_eq_true_eq]
        exact hdom c hc
      rw [hfind]
    · exact runGitCredentials_not_https stdin _ hproto
  · exact runGitCredentials_not_get operation stdin _ hop

/-! ## Remote names -/

/-- `bytes.Fields` computes the maximal white-space-free tokens. -/
theorem fieldsAux_eq_splitOnP (rest cur : Str) :
    fieldsAux cur rest
      = (List.splitOnP.go isSpace rest cur).filter (fun t => !t.isEmpty) := by
  induction rest generalizing cur with
  | nil =>
    unfold fieldsAux List.splitOnP.go
    by_cases h : cur = []
    · subst h; rfl
    · rw [if_neg h]
      have h2 : cur.reverse ≠ [] := fun hc => h (List.reverse_eq_nil_iff.1 hc)
      have h3 : (!cur.reverse.isEmpty) = true := by
        cases hr : cur.reverse with
        | nil => exact absurd hr h2
        | cons x t => rfl
      rw [List.filter_cons, if_pos h3]
      rfl
  | cons c t ih =>
    unfold fieldsAux List.splitOnP.go
    by_cases hc : isSpace c = true
    · rw [if_pos hc, if_pos hc]
      by_cases h : cur = []
      · subst h
        rw [if_pos rfl, ih]
        rfl
      · rw [if_neg h, ih]
        have h2 : cur.reverse ≠ [] := fun hc => h (List.reverse_eq_nil_iff.1 hc)
        have h3 : (!cur.reverse.isEmpty) = true := by
          cases hr : cur.reverse with
          | nil => exact absurd hr h2
          | cons x t => rfl
        rw [List.filter_cons, if_pos h3]
    · rw [if_neg hc, if_neg hc, ih]

theorem Fields_eq_specTokens (b : Str) : Fields b = specTokens b :=
  fieldsAux_eq_splitOnP b []

/-- With no error, the words delivered by the scanner are the fields of the text. -/
theorem scanWordsAux_tokens (rest : Str) (cur : Str)
    (h : (scanWordsAux cur rest).2 = none) :
    (scanWordsAux cur rest).1 = fieldsAux cur rest := by
  induction rest generalizing cur with
  | nil =>
    unfold scanWordsAux at h ⊢
    unfold fieldsAux
    by_cases h2 : cur = []
    · rw [if_pos h2, if_pos h2]
    · rw [if_neg h2] at h ⊢
      rw [if_neg h2]
      by_cases h1 : MaxScanTokenSize ≤ utf8Len cur
      · rw [if_pos h1] at h; cases h
      · rw [if_neg h1]
  | cons c t ih =>
    unfold scanWordsAux at h ⊢
    unfold fieldsAux
    by_cases hc : isSpace c = true
    · rw [if_pos hc] at h ⊢
      rw [if_pos hc]
      by_cases h2 : cur = []
      · rw [if_pos h2] at h ⊢
        rw [if_pos h2]
        exact ih _ h
      · rw [if_neg h2] at h ⊢
        rw [if_neg h2]
        by_cases h3 : utf8Len cur + c.utf8Size ≤ MaxScanTokenSize
        · rw [if_pos h3] at h ⊢
          rw [ih [] h]
        · rw [if_neg h3] at h; cases h
    · rw [if_neg hc] at h ⊢
      rw [if_neg hc]
      exact ih _ h

/-- Every word delivered by the scanner, with or without a final error, is non-empty
and has no white space. -/
theorem scanWordsAux_words (rest : Str) (cur : Str)
    (hcur : ∀ c ∈ cur, isSpace c = false) :
    ∀ t ∈ (scanWordsAux cur rest).1, t ≠ [] ∧ ∀ c ∈ t, isSpace c = false := by
  induction rest generalizing cur with
  | nil =>
    unfold scanWordsAux
    intro t ht
    by_cases h2 : cur = []
    · rw [if_pos h2] at ht; cases ht
    · rw [if_neg h2] at ht
      by_cases h1 : MaxScanTokenSize ≤ utf8Len cur
      · rw [if_pos h1] at ht; cases ht
      · rw [if_neg h1] at ht
        rw [List.mem_singleton] at ht
        subst ht
        exact ⟨fun hc => h2 (List.reverse_eq_nil_iff.1 hc),
          fun c hc => hcur c (List.mem_reverse.1 hc)⟩
  | cons c t ih =>
    unfold scanWordsAux
    intro w hw
    by_cases hc : isSpace c = true
    · rw [if_pos hc] at hw
      by_cases h2 : cur = []
      · rw [if_pos h2] at hw
        exact ih [] (fun _ hx => absurd hx (List.not_mem_nil _)) w hw
      · rw [if_neg h2] at hw
        by_cases h3 : utf8Len cur + c.utf8Size ≤ MaxScanTokenSize
        · rw [if_pos h3] at hw
          rcases List.mem_cons.1 hw with hw | hw
          · subst hw
            exact ⟨fun hc => h2 (List.reverse_eq_nil_iff.1 hc),
              fun x hx => hcur x (List.mem_reverse.1 hx)⟩
          · exact ih [] (fun _ hx => absurd hx (List.not_mem_nil _)) w hw
        · rw [if_neg h3] at hw; cases hw
    · rw [if_neg hc] at hw
      refine ih (c :: cur) ?_ w hw
      intro x hx
      rcases List.mem_cons.1 hx with hx | hx
      · rw [hx]; simpa using hc
      · exact hcur x hx

theorem utf8Len_cons (c : Char) (s : Str) : utf8Len (c :: s) = c.utf8Size + utf8Len s := rfl

theorem utf8Len_reverse (s : Str) : utf8Len s.reverse = utf8Len s := by
  induction s with
  | nil => rfl
  | cons c t ih =>
    rw [List.reverse_cons, utf8Len_append, ih, utf8Len_cons, utf8Len_cons, utf8Len_nil]
    omega

/-- The scan reports no error when every token is at most `MaxScanTokenSize - 4`
bytes long (a white-space character has at most four bytes), whatever the amount of
white space. -/
theorem scanWordsAux_fit (rest : Str) (cur : Str)
    (h : ∀ t ∈ fieldsAux cur rest, utf8Len t + 4 ≤ MaxScanTokenSize) :
    (scanWordsAux cur rest).2 = none := by
  induction rest generalizing cur with
  | nil =>
    unfold scanWordsAux
    unfold fieldsAux at h
    by_cases h2 : cur = []
    · rw [if_pos h2]
    · rw [if_neg h2] at h ⊢
      have := h cur.reverse (List.mem_singleton.2 rfl)
      rw [utf8Len_reverse] at this
      rw [if_neg (by omega)]
  | cons c t ih =>
    unfold scanWordsAux
    unfold fieldsAux at h
    by_cases hc : isSpace c = true
    · rw [if_pos hc] at h ⊢
      by_cases h2 : cur = []
      · rw [if_pos h2] at h ⊢
        exact ih [] h
      · rw [if_neg h2] at h ⊢
        have h3 := h cur.reverse (List.mem_cons_self _ _)
        rw [utf8Len_reverse] at h3
        have h4 := Char.utf8Size_le_four c
        rw [if_pos (by omega)]
        exact ih [] (fun x hx => h x (List.mem_cons_of_mem _ hx))
    · rw [if_neg hc] at h ⊢
      exact ih (c :: cur) h

/-- When the scan reports no error, every token is shorter than `MaxScanTokenSize`
bytes. -/
theorem scanWordsAux_bound (rest : Str) (cur : Str)
    (h : (scanWordsAux cur rest).2 = none) :
    ∀ t ∈ fieldsAux cur rest, utf8Len t < MaxScanTokenSize := by
  induction rest generalizing cur with
  | nil =>
    unfold scanWordsAux at h
    unfold fieldsAux
    intro t ht
    by_cases h2 : cur = []
    · rw [if_pos h2] at ht; cases ht
    · rw [if_neg h2] at h ht
      by_cases h1 : MaxScanTokenSize ≤ utf8Len cur
      · rw [if_pos h1] at h; cases h
      · rw [List.mem_singleton] at ht
        rw [ht, utf8Len_reverse]
        omega
  | cons c t ih =>
    unfold scanWordsAux at h
    unfold fieldsAux
    intro w hw
    by_cases hc : isSpace c = true
    · rw [if_pos hc] at h hw
      by_cases h2 : cur = []
      · rw [if_pos h2] at h hw
        exact ih [] h w hw
      · rw [if_neg h2] at h hw
        by_cases h3 : utf8Len cur + c.utf8Size ≤ MaxScanTokenSize
        · rw [if_pos h3] at h
          rcases List.mem_cons.1 hw with hw | hw
          · have h4 := Char.utf8Size_pos c
            rw [hw, utf8Len_reverse]
            omega
          · exact ih [] h w hw
        · rw [if_neg h3] at h; cases h
    · rw [if_neg hc] at h hw
      exact ih (c :: cur) h w hw

/-- White space before the first word is skipped, however long it is. -/
theorem scanWords_leading_spaces (n : Nat) (rest : Str) :
    scanWords (List.replicate n ' ' ++ rest) = scanWords rest := by
  induction n with
  | zero => rfl
  | succ k ih =>
    have e : List.replicate (k + 1) ' ' ++ rest = ' ' :: (List.replicate k ' ' ++ rest) := rfl
    rw [e]
    unfold scanWords at ih ⊢
    conv_lhs => unfold scanWordsAux
    rw [if_pos (by decide), if_pos rfl]
    exact ih

/-- The fields of a text without white space: the text itself, when it is not empty. -/
theorem fieldsAux_no_space (s cur : Str) (hs : ∀ c ∈ s, isSpace c = false) :
    fieldsAux cur s = if cur.reverse ++ s = [] then [] else [cur.reverse ++ s] := by
  induction s generalizing cur with
  | nil =>
    unfold fieldsAux
    rw [List.append_nil]
    by_cases h : cur = []
    · subst h; rfl
    · rw [if_neg h, if_neg (fun hc => h (List.reverse_eq_nil_iff.1 hc))]
  | cons c t ih =>
    unfold fieldsAux
    have hc : ¬ (isSpace c = true) := by
      rw [hs c (List.mem_cons_self _ _)]; exact Bool.false_ne_true
    rw [if_neg hc, ih (c :: cur) (fun x hx => hs x (List.mem_cons_of_mem _ hx))]
    have e : (c :: cur).reverse ++ t = cur.reverse ++ c :: t := by
      rw [List.reverse_cons, List.append_assoc]; rfl
    rw [e]

theorem Fields_word (t : Str) (hne : t ≠ []) (hs : ∀ c ∈ t, isSpace c = false) :
    Fields t = [t] := by
  unfold Fields
  rw [fieldsAux_no_space t [] hs]
  exact if_neg hne

theorem gitRemoteNamesLoop_words (words results : List Str)
    (h : ∀ t ∈ words, t ≠ [] ∧ ∀ c ∈ t, isSpace c = false) :
    gitRemoteNamesLoop results words = Except.ok (results ++ words) := by
  induction words generalizing results with
  | nil => rw [List.append_nil]; rfl
  | cons w t ih =>
    obtain ⟨hne, hs⟩ := h w (List.mem_cons_self _ _)
    unfold gitRemoteNamesLoop
    rw [Fields_word w hne hs]
    simp only
    rw [ih (results ++ [w]) (fun x hx => h x (List.mem_cons_of_mem _ hx)), List.append_assoc]
    rfl

theorem scanWords_words (b : Str) :
    ∀ t ∈ (scanWords b).1, t ≠ [] ∧ ∀ c ∈ t, isSpace c = false :=
  scanWordsAux_words b [] (fun _ hx => absurd hx (List.not_mem_nil _))

/-- The value of `gitRemoteNames` on the output of a successful command; taking
`f[0]` never panics. -/
theorem gitRemoteNames_eq (b : Str) :
    gitRemoteNames (Except.ok b)
      = Except.ok (match (scanWords b).2 with
          | some err => ([], some err)
          | none => ((scanWords b).1, none)) := by
  unfold gitRemoteNames
  have hl := gitRemoteNamesLoop_words (scanWords b).1 [] (scanWords_words b)
  rw [List.nil_append] at hl
  simp only [hl]
  cases (scanWords b).2 <;> rfl

/-- C11 as amended (remote names): whenever the word scanner reports no error,
`gitRemoteNames` on the output of a successful command returns exactly the maximal
white-space-free tokens of the text, in order and with no error; each is non-empty,
free of white space and shorter than `MaxScanTokenSize` bytes, and there is none when
the text is empty or all white space.  The scanner reports no error whenever every
token is at most `MaxScanTokenSize - 4` bytes long; white space takes no room.  For
every outcome of the command and every text, `f[0]` is within range: the function does
not panic. -/
theorem gitRemoteNames_tokens (b : Str) (hscan : (scanWords b).2 = none) :
    gitRemoteNames (Except.ok b) = Except.ok (specTokens b, none) ∧
    (∀ t ∈ specTokens b, t ≠ [] ∧ (∀ c ∈ t, isSpace c = false) ∧
      utf8Len t < MaxScanTokenSize) ∧
    ((∀ c ∈ b, isSpace c = true) → specTokens b = []) ∧
    (∀ b2 : Str, (∀ t ∈ specTokens b2, utf8Len t + 4 ≤ MaxScanTokenSize) →
      (scanWords b2).2 = none) ∧
    (∀ listing, ∃ r, gitRemoteNames listing = Except.ok r) := by
  have htok : (scanWords b).1 = specTokens b := by
    rw [← Fields_eq_specTokens]
    exact scanWordsAux_tokens b [] hscan
  refine ⟨?_, ?_, ?_, ?_, ?_⟩
  · rw [gitRemoteNames_eq, hscan, htok]
  · intro t ht
    have h1 := scanWords_words b t (by rw [htok]; exact ht)
    have h2 := scanWordsAux_bound b [] hscan t (by
      rw [← Fields_eq_specTokens] at ht; exact ht)
    exact ⟨h1.1, h1.2, h2⟩
  · intro hall
    unfold specTokens
    rw [List.filter_eq_nil_iff]
    intro t ht
    have hsub : ∀ (rest cur : Str), (∀ c ∈ rest, isSpace c = true) → cur = [] →
        ∀ t ∈ List.splitOnP.go isSpace rest cur, t = [] := by
      intro rest
      induction rest with
      | nil =>
        intro cur _ hcur t ht
        unfold List.splitOnP.go at ht
        rw [List.mem_singleton] at ht
        rw [ht, hcur]; rfl
      | cons c r ih =>
        intro cur hr hcur t ht
        unfold List.splitOnP.go at ht
        rw [if_pos (hr c (List.mem_cons_self _ _))] at ht
        rcases List.mem_cons.1 ht with ht | ht
        · rw [ht, hcur]; rfl
        · exact ih [] (fun x hx => hr x (List.mem_cons_of_mem _ hx)) rfl t ht
    have := hsub b [] hall rfl t ht
    rw [this]
    decide
  · intro b2 h2
    apply scanWordsAux_fit
    intro t ht
    exact h2 t (by rw [← Fields_eq_specTokens]; exact ht)
  · intro listing
    cases listing with
    | error e => exact ⟨_, rfl⟩
    | ok b2 => exact ⟨_, gitRemoteNames_eq b2⟩

/-- Witness of C11 as amended: two names on two lines. -/
theorem gitRemoteNames_tokens_witness :
    gitRemoteNames (Except.ok "origin\nflynn\n".toList)
      = Except.ok (specTokens "origin\nflynn\n".toList, none) ∧
    specTokens "origin\nflynn\n".toList = ["origin".toList, "flynn".toList] :=
  ⟨(gitRemoteNames_tokens "origin\nflynn\n".toList (by decide)).1, by decide⟩

theorem scanWordsAux_no_space (rest : Str) (cur : Str)
    (h : ∀ c ∈ rest, isSpace c = false) :
    scanWordsAux cur rest = scanWordsAux (rest.reverse ++ cur) [] := by
  induction rest generalizing cur with
  | nil => rfl
  | cons c t ih =>
    have hc : ¬ (isSpace c = true) := by
      rw [h c (List.mem_cons_self _ _)]; exact Bool.false_ne_true
    conv_lhs => unfold scanWordsAux
    rw [if_neg hc, ih (c :: cur) (fun x hx => h x (List.mem_cons_of_mem _ hx))]
    have e : t.reverse ++ c :: cur = (c :: t).reverse ++ cur := by
      rw [List.reverse_cons, List.append_assoc]; rfl
    rw [e]

/-- Long white space is no obstacle: seventy thousand spaces before a name, and
`MaxScanTokenSize` spaces alone, scan without error; so does a space followed by a word
of `MaxScanTokenSize - 1` bytes. -/
theorem gitRemoteNames_long_white_space :
    gitRemoteNames (Except.ok (List.replicate 70000 ' ' ++ "abc\n".toList))
      = Except.ok (["abc".toList], none) ∧
    gitRemoteNames (Except.ok (List.replicate MaxScanTokenSize ' ' ++ []))
      = Except.ok ([], none) ∧
    gitRemoteNames (Except.ok (List.replicate 1 ' ' ++ List.replicate (MaxScanTokenSize - 1) 'a'))
      = Except.ok ([List.replicate (MaxScanTokenSize - 1) 'a'], none) := by
  refine ⟨?_, ?_, ?_⟩
  · rw [gitRemoteNames_eq, scanWords_leading_spaces]
    have h : scanWords "abc\n".toList = (["abc".toList], none) := by decide
    rw [h]
  · rw [gitRemoteNames_eq, scanWords_leading_spaces]
    have h : scanWords [] = ([], none) := by decide
    rw [h]
  · rw [gitRemoteNames_eq, scanWords_leading_spaces]
    have hns : ∀ c ∈ List.replicate (MaxScanTokenSize - 1) 'a', isSpace c = false := by
      intro c hc
      rw [List.eq_of_mem_replicate hc]
      decide
    have hne : (List.replicate (MaxScanTokenSize - 1) 'a').reverse ≠ [] := by
      rw [List.reverse_replicate]
      intro hc
      have hl0 : (List.replicate (MaxScanTokenSize - 1) 'a').length = 0 := by
        rw [hc]; rfl
      rw [List.length_replicate] at hl0
      exact absurd hl0 (by decide)
    have hlen : utf8Len (List.replicate (MaxScanTokenSize - 1) 'a').reverse
        = MaxScanTokenSize - 1 := by
      rw [List.reverse_replicate, utf8Len_replicate_a]
    have hscan : scanWords (List.replicate (MaxScanTokenSize - 1) 'a')
        = ([List.replicate (MaxScanTokenSize - 1) 'a'], none) := by
      unfold scanWords
      rw [scanWordsAux_no_space _ [] hns, List.append_nil]
      unfold scanWordsAux
      rw [if_neg hne, if_neg (by rw [hlen]; decide), List.reverse_reverse]
    rw [hscan]

/-- Counterexample to C11 as stated: on an output made of one word of
`MaxScanTokenSize` bytes, `gitRemoteNames` returns no name and the error `ErrTooLong`,
while the text has one maximal white-space-free token. -/
theorem gitRemoteNames_long_word :
    gitRemoteNames (Except.ok longWord) = Except.ok ([], some GoError.ErrTooLong) ∧
    specTokens longWord = [longWord] := by
  have hns : ∀ c ∈ longWord, isSpace c = false := by
    intro c hc
    rw [List.eq_of_mem_replicate hc]
    decide
  have hne : longWord ≠ [] := by
    intro hc
    have hl0 : (List.replicate MaxScanTokenSize 'a').length = 0 := by
      rw [show List.replicate MaxScanTokenSize 'a' = [] from hc]; rfl
    rw [List.length_replicate] at hl0
    exact absurd hl0 (by decide)
  have hscan : scanWords longWord = ([], some GoError.ErrTooLong) := by
    unfold scanWords
    rw [scanWordsAux_no_space longWord [] hns, List.append_nil]
    unfold scanWordsAux
    have hlen : utf8Len longWord.reverse = MaxScanTokenSize := by
      unfold longWord
      rw [List.reverse_replicate, utf8Len_replicate_a]
    rw [if_neg (fun hc => hne (List.reverse_eq_nil_iff.1 hc)), if_pos (le_of_eq hlen.symm)]
  constructor
  · rw [gitRemoteNames_eq, hscan]
  · rw [← Fields_eq_specTokens]
    exact Fields_word longWord hne hns

/-! ## Global configuration -/

theorem gitConfig_eq (run : Runner) (log : List (List Str)) (args : List Str) :
    gitConfig run log args
      = match (run log ("git".toList :: ("config".toList :: "--global".toList :: args))).err with
        | some err => (log ++ ["git".toList :: ("config".toList :: "--global".toList :: args)],
            some (ConfigError.commandFailed err
              (joinSpace ("git".toList :: ("config".toList :: "--global".toList :: args)))
              (run log ("git".toList :: ("config".toList :: "--global".toList :: args))).out))
        | none => (log ++ ["git".toList :: ("config".toList :: "--global".toList :: args)],
            none) := rfl

theorem gitConfig_log (run : Runner) (log : List (List Str)) (args : List Str) :
    (gitConfig run log args).1
      = log ++ ["git".toList :: ("config".toList :: "--global".toList :: args)] := by
  rw [gitConfig_eq]
  cases (run log ("git".toList :: ("config".toList :: "--global".toList :: args))).err <;> rfl

/-- The value of `writeGlobalGitConfig` in terms of the outcomes of its steps. -/
theorem writeGlobalGitConfig_eq (run : Runner) (executable : Except Str Str) (d p : Str) :
    writeGlobalGitConfig run executable d p
      = match (run [] (installCommand1 d p)).err with
        | some err => ([installCommand1 d p], some (ConfigError.commandFailed err
            (joinSpace (installCommand1 d p)) (run [] (installCommand1 d p)).out))
        | none =>
          match executable with
          | Except.error msg => ([installCommand1 d p], some (ConfigError.executable msg))
          | Except.ok self =>
            match (run [installCommand1 d p] (installCommand2 d self)).err with
            | some err => ([installCommand1 d p, installCommand2 d self],
                some (ConfigError.commandFailed err (joinSpace (installCommand2 d self))
                  (run [installCommand1 d p] (installCommand2 d self)).out))
            | none => ([installCommand1 d p, installCommand2 d self], none) := by
  unfold writeGlobalGitConfig
  rw [gitConfig_eq]
  have e1 : ("git".toList :: ("config".toList :: "--global".toList ::
      ["http.https://git.".toList ++ d ++ ".sslCAInfo".toList, p])) = installCommand1 d p := rfl
  rw [e1]
  cases h1 : (run [] (installCommand1 d p)).err with
  | some err => rfl
  | none =>
    cases executable with
    | error msg => rfl
    | ok self =>
      have e2 : ("git".toList :: ("config".toList :: "--global".toList ::
          ["credential.https://git.".toList ++ d ++ ".helper".toList,
            self ++ " git-credentials".toList])) = installCommand2 d self := rfl
      simp only [gitConfig_eq, e2, List.nil_append]
      cases h2 : (run [installCommand1 d p] (installCommand2 d self)).err with
      | some err => rfl
      | none => rfl

/-- C13 (install): `writeGlobalGitConfig` runs the command that sets `sslCAInfo`, and
stops with an error when it fails; else it locates the executable, and stops with an
error when that fails; else it runs the command that sets the credential helper to
`<self> git-credentials`, and returns an error when it fails; it returns success
exactly when both commands ran, in this order, and succeeded. -/
theorem writeGlobalGitConfig_install (run : Runner) (executable : Except Str Str)
    (d p : Str) :
    ((run [] (installCommand1 d p)).err ≠ none →
      (writeGlobalGitConfig run executable d p).1 = [installCommand1 d p] ∧
      (writeGlobalGitConfig run executable d p).2 ≠ none) ∧
    ((run [] (installCommand1 d p)).err = none →
      (∀ msg, executable = Except.error msg →
        writeGlobalGitConfig run executable d p
          = ([installCommand1 d p], some (ConfigError.executable msg))) ∧
      (∀ self, executable = Except.ok self →
        ((run [installCommand1 d p] (installCommand2 d self)).err ≠ none →
          (writeGlobalGitConfig run executable d p).1
            = [installCommand1 d p, installCommand2 d self] ∧
          (writeGlobalGitConfig run executable d p).2 ≠ none) ∧
        ((run [installCommand1 d p] (installCommand2 d self)).err = none →
          writeGlobalGitConfig run executable d p
            = ([installCommand1 d p, installCommand2 d self], none)))) ∧
    ((writeGlobalGitConfig run executable d p).2 = none →
      ∃ self, executable = Except.ok self ∧
        (writeGlobalGitConfig run executable d p).1
          = [installCommand1 d p, installCommand2 d self] ∧
        (run [] (installCommand1 d p)).err = none ∧
        (run [installCommand1 d p] (installCommand2 d self)).err = none) := by
  rw [writeGlobalGitConfig_eq]
  cases h1 : (run [] (installCommand1 d p)).err with
  | some err =>
    refine ⟨?_, ?_, ?_⟩
    · intro _
      exact ⟨rfl, fun hc => by cases hc⟩
    · intro hc
      cases hc
    · intro hc
      cases hc
  | none =>
    cases executable with
    | error msg =>
      refine ⟨?_, ?_, ?_⟩
      · intro hc
        exact absurd rfl hc
      · intro _
        constructor
        · intro msg2 hm
          cases hm
          rfl
        · intro self hs
          cases hs
      · intro hc
        cases hc
    | ok self =>
      dsimp only
      cases h2 : (run [installCommand1 d p] (installCommand2 d self)).err with
      | some err =>
        refine ⟨?_, ?_, ?_⟩
        · intro hc
          exact absurd rfl hc
        · intro _
          constructor
          · intro msg hm
            cases hm
          · intro self2 hs
            cases hs
            rw [h2]
            constructor
            · intro _
              exact ⟨rfl, fun hc => by cases hc⟩
            · intro hc
              cases hc
        · intro hc
          cases hc
      | none =>
        refine ⟨?_, ?_, ?_⟩
        · intro hc
          exact absurd rfl hc
        · intro _
          constructor
          · intro msg hm
            cases hm
          · intro self2 hs
            cases hs
            rw [h2]
            constructor
            · intro hc
              exact absurd rfl hc
            · intro _
              rfl
        · intro _
          exact ⟨self, rfl, rfl, rfl, h2⟩

/-- C14 (uninstall): whatever the outcomes of the commands, `removeGlobalGitConfig`
runs the removal of the section `http.https://git.<d>` and then the removal of the
section `credential.https://git.<d>`; it returns nothing to its caller. -/
theorem removeGlobalGitConfig_best_effort (run : Runner) (d : Str) :
    removeGlobalGitConfig run d
      = [removeCommand "http".toList d, removeCommand "credential".toList d] ∧
    removeGlobalGitConfig failingRunner "example.com".toList
      = [removeCommand "http".toList "example.com".toList,
         removeCommand "credential".toList "example.com".toList] := by
  have h : ∀ (r : Runner) (x : Str), removeGlobalGitConfig r x
      = [removeCommand "http".toList x, removeCommand "credential".toList x] := by
    intro r x
    unfold removeGlobalGitConfig
    simp only [List.foldl_cons, List.foldl_nil, gitConfig_log, List.nil_append]
    rfl
  exact ⟨h run d, h failingRunner _⟩

/-! ## `mapOutput` -/

/-- C20 at inputs that are not lists of terminated records: on the text `ab` followed
by a newline, with separator `=` and terminator newline, `mapOutput` panics with an
index out of range; on the text `a=b` without a final newline the omitted last segment
is `a=b`, not the empty string, and the result is the empty mapping. -/
theorem mapOutput_not_total :
    mapOutput "ab\n".toList "=".toList "\n".toList = Except.error GoPanic.indexRange ∧
    SplitStr "a=b".toList "\n".toList = ["a=b".toList] ∧
    mapOutput "a=b".toList "=".toList "\n".toList = Except.ok [] := by
  decide

theorem splitAux_ne_nil (sep s : Str) (skip : Nat) (cur : Str) :
    splitAux sep skip cur s ≠ [] := by
  induction s generalizing skip cur with
  | nil =>
    cases skip with
    | zero => simp only [splitAux]; exact List.cons_ne_nil _ _
    | succ n => simp only [splitAux]; exact List.cons_ne_nil _ _
  | cons c t ih =>
    cases skip with
    | succ n =>
      simp only [splitAux]
      exact ih n cur
    | zero =>
      simp only [splitAux]
      split_ifs
      · exact List.cons_ne_nil _ _
      · exact ih 0 (c :: cur)

theorem mapOutputLoop_eq (sep : Str) (lines : List Str) (m : GoMap Str)
    (h : ∀ line ∈ lines, ∃ k v, SplitN2Str line sep = [k, v]) :
    mapOutputLoop sep m lines
      = Except.ok (insertAll m (lines.filterMap (fun line =>
          match SplitN2Str line sep with
          | [k, v] => some (k, v)
          | _ => none))) := by
  induction lines generalizing m with
  | nil => rfl
  | cons l t ih =>
    obtain ⟨k, v, hkv⟩ := h l (List.mem_cons_self _ _)
    unfold mapOutputLoop
    rw [List.filterMap_cons]
    simp only [hkv]
    rw [ih _ (fun x hx => h x (List.mem_cons_of_mem _ hx))]
    rfl

/-- On a text in which every segment but the last has the separator, `mapOutput`
returns the mapping of the segments but the last, the last occurrence of a key
winning; the last segment is left out whatever it is. -/
theorem mapOutput_records (out sep term : Str) (hterm : term ≠ [])
    (h : ∀ line ∈ (SplitStr out term).dropLast, ∃ k v, SplitN2Str line sep = [k, v]) :
    mapOutput out sep term
      = Except.ok (insertAll [] ((SplitStr out term).dropLast.filterMap (fun line =>
          match SplitN2Str line sep with
          | [k, v] => some (k, v)
          | _ => none))) := by
  unfold mapOutput
  have hne : (SplitStr out term).length ≠ 0 := by
    unfold SplitStr
    rw [if_neg hterm]
    intro hc
    exact splitAux_ne_nil term out 0 [] (List.length_eq_zero.1 hc)
  rw [if_neg hne]
  exact mapOutputLoop_eq sep _ [] h

end Flynn
